import Mathlib

/-!
Verification development for the deterministic knowledge-unit extractor and the
normalization runner/cache of the YouTube-KB repository.

The Python sources are shallowly embedded:

* `src/youtube_processor/extractors/deterministic_extractor.py` is modelled over
  `List Char` (one entry per Unicode code point, matching Python's `str`
  indexing).  Scores, which are Python floats combined by exact decimal
  literals, are modelled as exact rationals `ℚ`.  Unicode-dependent character
  classes (`unicodedata.category` P*/S*, `str.lower`, `\s`, `\w`) are modelled
  on the ASCII fragment, where NFKC normalization is the identity; this is
  noted at each definition.
* `src/youtube_processor/llm/normalizer_runner.py`,
  `normalizer_cache.py` and `normalizer_schema.py` are modelled with an
  explicit JSON value type; the external LLM categorizer is an opaque
  behaviour `Nat → Option Json` (`none` models a raised exception on that
  attempt), and Python exceptions are modelled with `Except PyErr`.
-/

namespace YKB

/-! ## Character classes (ASCII fragment)

`strip_punct_symbols` in the source removes every character whose Unicode
general category starts with `P` or `S`.  On ASCII these are exactly the
code points 33–47, 58–64, 91–96 and 123–126. -/

/-- Model of `unicodedata.category(c)` starting with `P` or `S`, restricted to
the ASCII range. -/
def isPunctSymbol (c : Char) : Bool :=
  (33 ≤ c.toNat && c.toNat ≤ 47) || (58 ≤ c.toNat && c.toNat ≤ 64) ||
  (91 ≤ c.toNat && c.toNat ≤ 96) || (123 ≤ c.toNat && c.toNat ≤ 126)

/-- Model of Python's `\s` / `str.split()` / `str.strip()` whitespace class
(ASCII fragment: space, tab, newline, vertical tab, form feed, carriage
return). -/
def isSpaceCh (c : Char) : Bool :=
  c = ' ' || c = '\t' || c = '\n' || c = '\r' || c.toNat = 11 || c.toNat = 12

/-- Model of Python's `\w` word-character class (ASCII fragment). -/
def isWordCh (c : Char) : Bool := c.isAlpha || c.isDigit || c = '_'

/-! ## Text normalization (`canon_text`, `words`) -/

/-- Port of `strip_punct_symbols`: replace every punctuation/symbol character
with a space. -/
def strip_punct_symbols (s : List Char) : List Char :=
  s.map (fun c => if isPunctSymbol c then ' ' else c)

/-- The tokenization loop, fuel-based so that the kernel can evaluate it
(each step consumes at least one character, so fuel `l.length` always
suffices and the `fuel = 0` equation is dead code). -/
def wsTokensAux : Nat → List Char → List (List Char)
  | 0, _ => []
  | _ + 1, [] => []
  | fuel + 1, c :: rest =>
    if isSpaceCh c then wsTokensAux fuel rest
    else
      (c :: rest.takeWhile (fun ch => !isSpaceCh ch)) ::
        wsTokensAux fuel (rest.drop (rest.takeWhile (fun ch => !isSpaceCh ch)).length)

/-- Maximal whitespace-separated tokens of a string, in order; models
Python's `str.split()` (without arguments).  When the head is not whitespace
the token is the maximal non-whitespace run from it, and the scan resumes
after that run. -/
def wsTokens (l : List Char) : List (List Char) := wsTokensAux l.length l

/-- Port of `canon_text`: strip punctuation/symbols, NFKC-normalize (the
identity on the ASCII fragment modelled here), lowercase, collapse whitespace
runs to single spaces, and trim. -/
def canon_text (s : List Char) : List Char :=
  let s1 := strip_punct_symbols s
  let s2 := s1.map Char.toLower
  List.intercalate [' '] (wsTokens s2)

/-- Port of `words`: the number of whitespace-separated tokens of
`canon_text s` (0 for a string that normalizes to empty). -/
def words (s : List Char) : Nat :=
  let t := canon_text s
  if t = [] then 0 else (wsTokens t).length

/-! ## Quantization (`quant`) and Python `round`

Python's `round` on a half-integer value rounds to the nearest even integer
(banker's rounding); the source relies on `round` both in `quant` and in the
default target count. -/

/-- Model of Python's built-in `round` (round half to even) on an exact
rational. -/
def pyRound (q : ℚ) : ℤ :=
  let f : ℤ := ⌊q⌋
  let r : ℚ := q - f
  if r < 1/2 then f
  else if 1/2 < r then f + 1
  else if f % 2 = 0 then f else f + 1

/-- Port of `quant`: quantize a score to an integer at six decimal places. -/
def quant (x : ℚ) : ℤ := pyRound (x * 1000000)

/-! ## 3-grams and Jaccard similarity -/

/-- Port of `ngrams3`: the set (modelled as a deduplicated list) of all
length-3 substrings of `canon_text s`. -/
def ngrams3 (s : List Char) : List (List Char) :=
  let t := canon_text s
  (((List.range (t.length - 2)).map (fun i => (t.drop i).take 3))).dedup

/-- Port of `jaccard3`: Jaccard similarity of the trigram sets, `1.0` when the
union is empty. -/
def jaccard3 (a b : List Char) : ℚ :=
  let A := ngrams3 a
  let B := ngrams3 b
  let inter := (A.filter (fun g => decide (g ∈ B))).length
  let union := A.length + B.length - inter
  if 0 < union then (inter : ℚ) / (union : ℚ) else 1

/-! ## Windowing (`split_into_windows_by_chars`) -/

/-- A window of the transcript; `stop` is the field named `end` in the source
(`end` is a Lean keyword). -/
structure Window where
  start : Nat
  stop : Nat
  text : List Char
  index : Nat
deriving DecidableEq, Repr

/-- Python slice `s[a:b]` (for `a ≤ b`). -/
def slice (s : List Char) (a b : Nat) : List Char := (s.take b).drop a

/-- Does `needle` occur at the head of `haystack`? -/
def matchesAt : List Char → List Char → Bool
  | [], _ => true
  | _ :: _, [] => false
  | a :: as, b :: bs => a = b && matchesAt as bs

/-- Model of `str.rfind('. ')` on a slice: the largest index at which the
two-character pattern `". "` occurs, if any (`None` models Python's `-1`). -/
def rfindDotSpace (l : List Char) : Option Nat :=
  ((List.range l.length).filter (fun b => matchesAt ['.', ' '] (l.drop b))).getLast?

/-- The window end computed by one iteration of the loop in
`split_into_windows_by_chars`, starting at offset `i`: tentatively
`min (i + window_chars) (len s)`, snapped to just after the last `". "`
occurrence at a positive offset when the tentative end is strictly before the
end of the string. -/
def windowEnd (s : List Char) (window_chars i : Nat) : Nat :=
  let e := min (i + window_chars) s.length
  if e < s.length then
    match rfindDotSpace (slice s i e) with
    | some b => if 0 < b then i + b + 2 else e
    | none => e
  else e

/-- The window loop body, fuel-based so that the kernel can evaluate it
(each emitted window advances the position by at least one character, so
fuel `s.length - i` always suffices; the `fuel = 0` equation is dead code). -/
def windowsAuxF : Nat → List Char → Nat → Nat → Nat → List Window
  | 0, _, _, _, _ => []
  | fuel + 1, s, wc, i, idx =>
    if i < s.length then
      if i < windowEnd s wc i then
        ⟨i, windowEnd s wc i, slice s i (windowEnd s wc i), idx⟩ ::
          windowsAuxF fuel s wc (windowEnd s wc i) (idx + 1)
      else []
    else []

/-- The loop of `split_into_windows_by_chars`, from position `i` with next
window index `idx`.  The inner `else []` branch is unreachable for
`1 ≤ window_chars` (the source loops forever there when `window_chars = 0`,
since the window end never advances). -/
def windowsAux (s : List Char) (wc : Nat) (i idx : Nat) : List Window :=
  windowsAuxF (s.length - i) s wc i idx

theorem windowsAuxF_irrel : ∀ (f1 f2 : Nat) (s : List Char) (wc i idx : Nat),
    s.length - i ≤ f1 → s.length - i ≤ f2 →
    windowsAuxF f1 s wc i idx = windowsAuxF f2 s wc i idx := by
  intro f1
  induction f1 with
  | zero =>
    intro f2 s wc i idx h1 h2
    cases f2 with
    | zero => rfl
    | succ f2 =>
      have hi : ¬ i < s.length := by omega
      simp [windowsAuxF, hi]
  | succ f1 ih =>
    intro f2 s wc i idx h1 h2
    cases f2 with
    | zero =>
      have hi : ¬ i < s.length := by omega
      simp [windowsAuxF, hi]
    | succ f2 =>
      simp only [windowsAuxF]
      by_cases hi : i < s.length
      · simp only [if_pos hi]
        by_cases he : i < windowEnd s wc i
        · simp only [if_pos he]
          rw [ih f2 s wc (windowEnd s wc i) (idx + 1) (by omega) (by omega)]
        · simp only [if_neg he]
      · simp only [if_neg hi]

/-- The one-step unfolding of the window loop. -/
theorem windowsAux_eq (s : List Char) (wc i idx : Nat) :
    windowsAux s wc i idx =
      if i < s.length then
        if i < windowEnd s wc i then
          ⟨i, windowEnd s wc i, slice s i (windowEnd s wc i), idx⟩ ::
            windowsAux s wc (windowEnd s wc i) (idx + 1)
        else []
      else []:= by
  unfold windowsAux
  by_cases hi : i < s.length
  · have h1 : s.length - i = (s.length - i - 1) + 1 := by omega
    rw [h1]
    simp only [windowsAuxF, if_pos hi]
    by_cases he : i < windowEnd s wc i
    · simp only [if_pos he]
      rw [windowsAuxF_irrel (s.length - i - 1) (s.length - windowEnd s wc i) s wc
        (windowEnd s wc i) (idx + 1) (by omega) (Nat.le_refl _)]
    · simp only [if_neg he]
  · have h0 : s.length - i = 0 := by omega
    rw [h0]
    simp [windowsAuxF, hi]

/-- Port of `split_into_windows_by_chars`. -/
def split_into_windows_by_chars (s : List Char) (window_chars : Nat) : List Window :=
  windowsAux s window_chars 0 0

/-! ## Sentence splitting (`sentence_split`)

The source matches the regex `[^.!?]+[.!?]+(?=(?:[\\"\')\]]*\s+)|$)` with
`re.finditer`.  A match is a maximal run of non-terminator characters followed
by a maximal run of terminators, accepted only when followed by optional
closing punctuation then whitespace, or by the end of the string (shrinking
either greedy run can never repair a failed lookahead, because the next
character would then be a terminator, which is neither closing punctuation nor
whitespace).  On failure the scan advances one position, exactly as the regex
engine does. -/

/-- Sentence-terminator characters `.!?`. -/
def isTermCh (c : Char) : Bool := c = '.' || c = '!' || c = '?'

/-- Closing punctuation accepted by the lookahead: `\\`, `"`, `'`, `)`, `]`. -/
def isCloseCh (c : Char) : Bool :=
  c = '\\' || c = '"' || c = '\'' || c = ')' || c = ']'

/-- The regex lookahead `(?=(?:[\\"\')\]]*\s+)|$)` applied to the rest of the
string after the terminator run. -/
def lookaheadOk (rest : List Char) : Bool :=
  rest.isEmpty ||
    (match rest.dropWhile isCloseCh with
     | c :: _ => isSpaceCh c
     | [] => false)

/-- A sentence match; `stop` is the dictionary key `end` in the source. -/
structure Sent where
  text : List Char
  start : Nat
  stop : Nat
deriving DecidableEq, Repr

/-- Attempt a regex match at the head of `l`: the maximal non-terminator run
`r1`, then the maximal terminator run `r2`, accepted (returning the match
length `|r1| + |r2|`) only when both runs are nonempty and the lookahead
holds on the remainder. -/
def sentMatchLen (l : List Char) : Option Nat :=
  let r1 := l.takeWhile (fun ch => !isTermCh ch)
  let r2 := (l.drop r1.length).takeWhile isTermCh
  if r1.isEmpty || r2.isEmpty then none
  else if lookaheadOk (l.drop (r1.length + r2.length)) then
    some (r1.length + r2.length)
  else none

theorem sentMatchLen_pos (l : List Char) (m : Nat) (h : sentMatchLen l = some m) :
    0 < m := by
  simp only [sentMatchLen] at h
  split at h
  · exact absurd h (by simp)
  · split at h
    · rename_i hne _
      simp only [Option.some.injEq] at h
      simp only [Bool.or_eq_true, List.isEmpty_iff, not_or] at hne
      have : 0 < (l.takeWhile (fun ch => !isTermCh ch)).length :=
        List.length_pos.mpr (by simpa [List.isEmpty_iff] using hne.1)
      omega
    · exact absurd h (by simp)

/-- The scanning loop of the sentence regex, fuel-based so that the kernel
can evaluate it (`sentMatchLen` is positive whenever it matches, so each step
consumes at least one character and fuel `l.length` always suffices; the
`fuel = 0` equation is dead code). -/
def scanSentencesAux : Nat → List Char → Nat → List Sent
  | 0, _, _ => []
  | _ + 1, [], _ => []
  | fuel + 1, c :: rest, pos =>
    match sentMatchLen (c :: rest) with
    | some m =>
      ⟨(c :: rest).take m, pos, pos + m⟩ ::
        scanSentencesAux fuel ((c :: rest).drop m) (pos + m)
    | none => scanSentencesAux fuel rest (pos + 1)

/-- The matches of the sentence regex over `s`, scanning from absolute
position `pos`; models `re.finditer` for the pattern above (on a failed
attempt the engine restarts one position further; on a successful match it
resumes at the match end). -/
def scanSentences (l : List Char) (pos : Nat) : List Sent :=
  scanSentencesAux l.length l pos

/-- Python `str.strip()` (whitespace strip on both ends). -/
def pyStrip (l : List Char) : List Char :=
  ((l.dropWhile isSpaceCh).reverse.dropWhile isSpaceCh).reverse

/-- Port of `sentence_split`: all regex matches, with the whole (non-blank)
window as a single fallback sentence when the regex finds nothing. -/
def sentence_split (s : List Char) : List Sent :=
  let out := scanSentences s 0
  if out.isEmpty && !(pyStrip s).isEmpty then [⟨s, 0, s.length⟩] else out

/-! ## Imperative detection (`imperative_boost`)

The source regex, applied to `canon_text s`, is
`^(?:(?:you|we)\s+)?(?:must|should|never|always)\b|^(?:use|set|avoid|ensure|check|install|enable|disable|measure|calculate)\b`. -/

/-- Does `t` start with keyword `w` followed by a word boundary? -/
def startsKw (t w : List Char) : Bool :=
  matchesAt w t &&
    (match t.drop w.length with
     | [] => true
     | c :: _ => !isWordCh c)

/-- Strip an optional leading `you`/`we` followed by at least one whitespace
character (the regex group `(?:(?:you|we)\s+)?`). -/
def afterPronoun (t : List Char) : Option (List Char) :=
  if matchesAt "you".data t then
    match t.drop 3 with
    | c :: rest => if isSpaceCh c then some ((c :: rest).dropWhile isSpaceCh) else none
    | [] => none
  else if matchesAt "we".data t then
    match t.drop 2 with
    | c :: rest => if isSpaceCh c then some ((c :: rest).dropWhile isSpaceCh) else none
    | [] => none
  else none

/-- The modal keywords of the first regex alternative. -/
def modalKw : List (List Char) := ["must".data, "should".data, "never".data, "always".data]

/-- The leading verbs of the second regex alternative. -/
def verbKw : List (List Char) :=
  ["use".data, "set".data, "avoid".data, "ensure".data, "check".data,
   "install".data, "enable".data, "disable".data, "measure".data, "calculate".data]

/-- Port of `imperative_boost`: 1 when the canonicalized text matches the
imperative regex, 0 otherwise. -/
def imperative_boost (s : List Char) : Nat :=
  let t := canon_text s
  let alt1 :=
    modalKw.any (fun w => startsKw t w) ||
      (match afterPronoun t with
       | some t2 => modalKw.any (fun w => startsKw t2 w)
       | none => false)
  let alt2 := verbKw.any (fun w => startsKw t w)
  if alt1 || alt2 then 1 else 0

/-! ## Non-overlapping frequency counting (`occurrences`) -/

/-- Smallest index at which `n` occurs as a contiguous sublist of `h`
(model of `str.find`). -/
def findSub (h n : List Char) : Option Nat :=
  (List.range (h.length + 1)).find? (fun i => matchesAt n (h.drop i))

/-- The counting loop body, fuel-based so that the kernel can evaluate it
(each match consumes at least one character of the haystack, so fuel
`haystack.length` always suffices; the `fuel = 0` equation is dead code). -/
def countOccAuxF : Nat → List Char → List Char → Nat
  | 0, _, _ => 0
  | _ + 1, _, [] => 0
  | _ + 1, [], _ :: _ => 0
  | fuel + 1, a :: as, c :: cs =>
    match findSub (c :: cs) (a :: as) with
    | none => 0
    | some j => 1 + countOccAuxF fuel (a :: as) ((c :: cs).drop (j + as.length + 1))

/-- The non-overlapping occurrence count loop of `occurrences` (each match
consumes its length before the search continues).  Only invoked with a
nonempty needle; the empty-needle case is dead code kept for totality. -/
def countOccAux (needle haystack : List Char) : Nat :=
  countOccAuxF haystack.length needle haystack

/-- Port of `occurrences`: `0` for the empty needle, otherwise `1 +` the
number of non-overlapping occurrences of `needle` in `haystack`. -/
def occurrences (haystack needle : List Char) : Nat :=
  if needle.isEmpty then 0 else 1 + countOccAux needle haystack

/-! ## Helper (`clamp`) -/

/-- Port of `clamp` at the integer instance used by the selector. -/
def clampZ (n lo hi : ℤ) : ℤ := max lo (min hi n)

/-! ## Data model -/

/-- Port of the `Unit` dataclass: one knowledge-unit candidate.  `stop` is the
field named `end` in the source; `id` is the List-of-characters form of the
f-string `"{window}:{start}-{end}"`. -/
structure Unit where
  id : List Char
  text : List Char
  start : Nat
  stop : Nat
  score : ℚ
  window : Nat
deriving DecidableEq, Repr

/-- Decimal digits of a natural number (fuel-based so that the kernel can
evaluate it; the fuel `n + 1` always suffices). -/
def natDigitsAux : Nat → Nat → List Char
  | 0, _ => []
  | _ + 1, n =>
    if n < 10 then [Char.ofNat (48 + n)]
    else natDigitsAux (n / 10 + 1) (n / 10) ++ [Char.ofNat (48 + n % 10)]

/-- Decimal representation of a natural number as characters. -/
def natToChars (n : Nat) : List Char := natDigitsAux (n + 1) n

/-- The candidate id `"{window}:{start}-{end}"`. -/
def unitId (window a b : Nat) : List Char :=
  natToChars window ++ ':' :: natToChars a ++ '-' :: natToChars b

/-- Port of the `ExtractOptions` dataclass with its defaults. -/
structure ExtractOptions where
  window_chars : Nat := 3500
  target_count : Option Nat := none
  min_words : Nat := 4
  max_words : Nat := 24
  jaccard_threshold : ℚ := 0.92
  per_window_quota : Option Nat := none
  include_meta : Bool := false

/-- Port of `ExtractResult`.  The optional diagnostic `meta` record (which
carries only configuration echoes and the Python version string) is omitted:
no verified property concerns it. -/
structure ExtractResult where
  units : List Unit

/-! ## Sort relations

Python's `list.sort(key=...)` sorts stably, ascending by tuple comparison.
The keys `(-quant(score), ...)` compare ascending on `-quant` exactly when
they compare descending on `quant`, which is how the relations are written
here. -/

/-- Strict lexicographic comparison of character lists by code point: the
comparison Python performs on `str`. -/
def lexLt : List Char → List Char → Bool
  | [], [] => false
  | [], _ :: _ => true
  | _ :: _, [] => false
  | a :: as, b :: bs =>
    decide (a.toNat < b.toNat) || (decide (a.toNat = b.toNat) && lexLt as bs)

/-- Non-strict lexicographic comparison (total order companion of `lexLt`). -/
def lexLe (a b : List Char) : Bool := !(lexLt b a)

/-- The sort key `(u.start, u.text)` used both before near-duplicate collapse
and for the final output ordering. -/
def rout (u v : Unit) : Prop :=
  u.start < v.start ∨ (u.start = v.start ∧ lexLe u.text v.text = true)

/-- The per-window-quota sort key `(-quant(u.score), u.start, u.text)`. -/
def rquota (u v : Unit) : Prop :=
  quant v.score < quant u.score ∨ (quant u.score = quant v.score ∧ rout u v)

/-- The global ranking key `(-quant(u.score), u.window, u.start, u.text)`. -/
def rrank (u v : Unit) : Prop :=
  quant v.score < quant u.score ∨
    (quant u.score = quant v.score ∧
      (u.window < v.window ∨ (u.window = v.window ∧ rout u v)))

instance : DecidableRel rout := fun u v => by unfold rout; infer_instance
instance : DecidableRel rquota := fun u v => by unfold rquota rout; infer_instance
instance : DecidableRel rrank := fun u v => by unfold rrank rout; infer_instance

/-! ## The extraction pipeline (`extract_deterministic_units`)

The source's single function is modelled as a composition of named stages so
that the intermediate lists can be referred to in theorems; the stages are the
loop bodies of the source in order. -/

/-- The body of the inner candidate loop, for one sentence of a window:
`none` when the word count falls outside the configured band, otherwise the
scored candidate (frequency 40%, early position 20%, normalized length 20%,
imperative boost 20%). -/
def sentCandidate (transcript transcript_norm : List Char) (total_len : Nat)
    (opts : ExtractOptions) (w : Window) (sen : Sent) : Option Unit :=
  let abs_start := w.start + sen.start
  let abs_stop := w.start + sen.stop
  let text := pyStrip (slice transcript abs_start abs_stop)
  let wcount := words text
  if wcount < opts.min_words ∨ opts.max_words < wcount then none
  else
    let occ := occurrences transcript_norm (canon_text text)
    let early : ℚ := 1 - (abs_start : ℚ) / (total_len : ℚ)
    let imperative := imperative_boost text
    let len_norm : ℚ := ((min wcount opts.max_words : Nat) : ℚ) / (opts.max_words : ℚ)
    let score : ℚ := 0.4 * occ + 0.2 * early + 0.2 * len_norm + 0.2 * imperative
    some ⟨unitId w.index abs_start abs_stop, text, abs_start, abs_stop, score, w.index⟩

/-- The candidate-building loop body for one window: sentence-split the
window text, keep and score the sentences in the word band, and apply the
optional per-window quota (skipped when the quota is `None` or `0`, both
falsy in Python). -/
def windowCandidates (transcript transcript_norm : List Char) (total_len : Nat)
    (opts : ExtractOptions) (w : Window) : List Unit :=
  let window_cands := (sentence_split w.text).filterMap
    (sentCandidate transcript transcript_norm total_len opts w)
  match opts.per_window_quota with
  | some q =>
    if 0 < q ∧ q < window_cands.length then
      (List.insertionSort rquota window_cands).take q
    else window_cands
  | none => window_cands

/-- All scored candidates of the extraction, in source order (the list the
source calls `candidates` when it enters deduplication). -/
def candidatesList (transcript : List Char) (opts : ExtractOptions) : List Unit :=
  (split_into_windows_by_chars transcript opts.window_chars).flatMap
    (windowCandidates transcript (canon_text transcript) transcript.length opts)

/-- Assignment `m[k] = v` on an insertion-ordered association list, modelling
a Python `dict`: an existing key keeps its position, a new key is appended. -/
def dictSet (m : List (List Char × Unit)) (k : List Char) (v : Unit) :
    List (List Char × Unit) :=
  if m.any (fun p => decide (p.1 = k)) then
    m.map (fun p => if p.1 = k then (k, v) else p)
  else m ++ [(k, v)]

/-- One iteration of the exact-deduplication loop (`key = canon_text c.text`;
`by_key.get(key)` is `find?`): keep per key the candidate with the smallest
`start` (the first inserted on ties). -/
def dedupeStep (m : List (List Char × Unit)) (c : Unit) : List (List Char × Unit) :=
  match m.find? (fun p => decide (p.1 = canon_text c.text)) with
  | none => dictSet m (canon_text c.text) c
  | some p => if c.start < p.2.start then dictSet m (canon_text c.text) c else m

/-- The exact-deduplication loop over all candidates. -/
def dedupeFold (cs : List Unit) : List (List Char × Unit) :=
  cs.foldl dedupeStep []

/-- `list(by_key.values())` after the exact-deduplication loop. -/
def dedupedOf (cs : List Unit) : List Unit := (dedupeFold cs).map (·.2)

/-- The near-duplicate collapse loop: walk in order, dropping any unit whose
trigram-Jaccard similarity with the most recently kept unit reaches the
threshold. -/
def collapseNear (jt : ℚ) (l : List Unit) : List Unit :=
  l.foldl (fun collapsed u =>
    match collapsed.getLast? with
    | some last =>
      if jt ≤ jaccard3 u.text last.text then collapsed else collapsed ++ [u]
    | none => collapsed ++ [u]) []

/-- The default target count `int(clamp(round(total_len / 2500), 40, 90))`. -/
def defaultTarget (total_len : Nat) : Nat :=
  (clampZ (pyRound ((total_len : ℚ) / 2500)) 40 90).toNat

/-- The candidates surviving both deduplication passes, in the order the
source holds them just before global ranking (the source's `collapsed`). -/
def survivors (transcript : List Char) (opts : ExtractOptions) : List Unit :=
  collapseNear opts.jaccard_threshold
    (List.insertionSort rout (dedupedOf (candidatesList transcript opts)))

/-- Port of `extract_deterministic_units`: rank the survivors globally, take
the target count, and re-sort the selection by `(start, text)` for output. -/
def extract_deterministic_units (transcript : List Char) (opts : ExtractOptions) :
    ExtractResult :=
  let collapsed := survivors transcript opts
  let ranked := List.insertionSort rrank collapsed
  let target_count :=
    match opts.target_count with
    | some t => t
    | none => defaultTarget transcript.length
  let selected := ranked.take target_count
  ⟨List.insertionSort rout selected⟩

/-! ## JSON values and Python-level primitives for the runner model -/

/-- A JSON-like Python value, as produced by the external categorizer and
consumed by the validators (numbers are modelled as exact rationals). -/
inductive Json where
  | null : Json
  | bool (b : Bool) : Json
  | num (q : ℚ) : Json
  | str (s : String) : Json
  | arr (items : List Json) : Json
  | obj (fields : List (String × Json)) : Json

/-- Key lookup in an object's field list (Python `dict` access; reachable
dictionaries have no duplicate keys, and lookup takes the first binding). -/
def jlookup (kvs : List (String × Json)) (k : String) : Option Json :=
  (kvs.find? (fun p => decide (p.1 = k))).map (·.2)

/-- Python exceptions distinguished by the model. -/
inductive PyErr where
  | attributeError : PyErr
  | typeError : PyErr
  | keyError : PyErr
  | valueError : PyErr
  | jsonDecodeError : PyErr
deriving DecidableEq, Repr

/-- Python `obj.get(k, default)`: raises `AttributeError` unless `obj` is a
dict. -/
def pyGetDefault (j : Json) (k : String) (d : Json) : Except PyErr Json :=
  match j with
  | .obj kvs => .ok ((jlookup kvs k).getD d)
  | _ => .error .attributeError

/-- Python `obj.get(k)` with `None` default, returning the looked-up value.
Raises `AttributeError` unless `obj` is a dict. -/
def pyGetOpt (j : Json) (k : String) : Except PyErr (Option Json) :=
  match j with
  | .obj kvs => .ok (jlookup kvs k)
  | _ => .error .attributeError

/-- Python `len`: defined on lists, strings and dicts, `TypeError`
otherwise. -/
def pyLen (j : Json) : Except PyErr Nat :=
  match j with
  | .arr l => .ok l.length
  | .str s => .ok s.length
  | .obj kvs => .ok kvs.length
  | _ => .error .typeError

/-- Python `obj[k]` for a string key: `KeyError` when the key is absent,
`TypeError` unless `obj` is a dict. -/
def pySubscript (j : Json) (k : String) : Except PyErr Json :=
  match j with
  | .obj kvs =>
    match jlookup kvs k with
    | some v => .ok v
    | none => .error .keyError
  | _ => .error .typeError

/-- Python iteration: lists yield elements, strings yield one-character
strings, dicts yield keys; other values raise `TypeError`. -/
def pyIter (j : Json) : Except PyErr (List Json) :=
  match j with
  | .arr l => .ok l
  | .str s => .ok (s.data.map (fun c => .str ⟨[c]⟩))
  | .obj kvs => .ok (kvs.map (fun p => .str p.1))
  | _ => .error .typeError

/-! ## Schema validation (`normalizer_schema.py`) -/

/-- The 10-value `type` enum of `NORMALIZED_SCHEMA`. -/
def TYPE_ENUM : List String :=
  ["technique", "pattern", "use-case", "capability", "integration",
   "anti-pattern", "component", "troubleshooting", "configuration",
   "code-snippet"]

/-- Validation of one element of `units` against the item schema: an object
with exactly the five required fields, `type` in the enum, `name` of length
1–80, `summary` of length 1–300, `confidence` a number in [0, 1]. -/
def schemaValidUnit (j : Json) : Bool :=
  match j with
  | .obj kvs =>
    kvs.all (fun p =>
      p.1 = "id" || p.1 = "type" || p.1 = "name" || p.1 = "summary" ||
        p.1 = "confidence") &&
    (match jlookup kvs "id" with
     | some (.str _) => true
     | _ => false) &&
    (match jlookup kvs "type" with
     | some (.str t) => TYPE_ENUM.contains t
     | _ => false) &&
    (match jlookup kvs "name" with
     | some (.str n) => decide (1 ≤ n.length) && decide (n.length ≤ 80)
     | _ => false) &&
    (match jlookup kvs "summary" with
     | some (.str s) => decide (1 ≤ s.length) && decide (s.length ≤ 300)
     | _ => false) &&
    (match jlookup kvs "confidence" with
     | some (.num q) => decide (0 ≤ q) && decide (q ≤ 1)
     | _ => false)
  | _ => false

/-- Port of `validate_normalized` against `NORMALIZED_SCHEMA` (a `True`
result; the error-message list of the source carries no further
information). -/
def validate_normalized (j : Json) : Bool :=
  match j with
  | .obj kvs =>
    kvs.all (fun p => p.1 = "video_id" || p.1 = "units") &&
    (match jlookup kvs "video_id" with
     | some (.str _) => true
     | _ => false) &&
    (match jlookup kvs "units" with
     | some (.arr us) => us.all schemaValidUnit
     | _ => false)
  | _ => false

/-! ## Normalizer cache (`normalizer_cache.py`)

The in-memory mapping is an insertion-ordered association list from
`"{video_id}:{unit_id}"` keys to records.  Records are typed as the
`CacheRecord` dataclass; every record the runner itself writes has these
field types.  Disk persistence (`save`) is modelled as the identity on the
mapping: cache-write failure is explicitly outside the verified contract. -/

/-- Port of the `CacheRecord` dataclass. -/
structure CacheRecord where
  type : String
  name : String
  summary : String
  confidence : ℚ
  normalizer_sig : String
deriving DecidableEq, Repr

/-- The in-memory cache mapping. -/
abbrev Cache := List (String × CacheRecord)

/-- Port of `NormalizerCache._key`. -/
def cacheKey (video_id unit_id : String) : String := video_id ++ ":" ++ unit_id

/-- Port of `NormalizerCache.get`. -/
def cacheGet (data : Cache) (video_id unit_id : String) : Option CacheRecord :=
  (data.find? (fun p => decide (p.1 = cacheKey video_id unit_id))).map (·.2)

/-- Port of `NormalizerCache.has` (`key in self.data`). -/
def cacheHas (data : Cache) (video_id unit_id : String) : Bool :=
  (cacheGet data video_id unit_id).isSome

/-- Port of `NormalizerCache.set`: dict assignment (existing key keeps its
position, new key appended). -/
def cacheSet (data : Cache) (video_id unit_id : String) (r : CacheRecord) : Cache :=
  let k := cacheKey video_id unit_id
  if data.any (fun p => decide (p.1 = k)) then
    data.map (fun p => if p.1 = k then (k, r) else p)
  else data ++ [(k, r)]

/-- Python `del self.data[key]`. -/
def cacheDel (data : Cache) (k : String) : Cache :=
  data.filter (fun p => !(decide (p.1 = k)))

/-- Port of `NormalizerCache.invalidate_if_sig_mismatch` (returning the new
mapping; the boolean the source also returns is unused by the runner). -/
def invalidate_if_sig_mismatch (data : Cache) (video_id unit_id current_sig : String) :
    Cache :=
  match cacheGet data video_id unit_id with
  | some r =>
    if r.normalizer_sig ≠ current_sig then cacheDel data (cacheKey video_id unit_id)
    else data
  | none => data

/-- Port of `NormalizerCache._load`, with `json.loads` abstracted as an
opaque parse outcome: `none` models a missing file, `some (.error e)` a file
whose contents fail to parse (`json.JSONDecodeError`, which the source
catches along with `TypeError`), and `some (.ok v)` a file parsing to the
JSON value `v`.  The result is the constructed cache's `self.data`
(initialized to the empty dict and only overwritten by a successful parse);
`Except.ok` throughout means construction raises nothing. -/
def nc_load (file_state : Option (Except PyErr Json)) : Except PyErr Json :=
  match file_state with
  | none => .ok (Json.obj [])
  | some (.ok v) => .ok v
  | some (.error _) => .ok (Json.obj [])

/-! ## Normalization runner (`normalizer_runner.py`)

`run` is parameterized by the runner's signature string (the source computes
it as a SHA-256 of the model / template-version / sorted-taxonomy
configuration; its value is opaque to the orchestration logic) and by the
behaviour of the external categorizer: `beh n` is the outcome of the
`n`-th `normalizer.normalize` call, `none` modelling a raised exception. -/

/-- A normalization candidate as consumed by the runner (`c['id']` and
`c['text']` are the only fields it reads). -/
structure Candidate where
  id : String
  text : String
deriving DecidableEq, Repr

/-- Python string slice `s[:n]`: the first `n` code points (`String` here is
a list of code points, so this is `List.take` on the character data). -/
def pyTake (s : String) (n : Nat) : String := ⟨s.data.take n⟩

/-- Port of `NormalizerRunner._create_fallback`. -/
def create_fallback (video_id : String) (cands : List Candidate) : Json :=
  .obj [("video_id", .str video_id),
        ("units", .arr (cands.map (fun c =>
          .obj [("id", .str c.id),
                ("type", .str "component"),
                ("name", .str "(unclear)"),
                ("summary", .str (pyTake c.text 280)),
                ("confidence", .num 0.3)])))]

/-- The `zip(result['units'], candidates)` id-comparison loop of
`_validate_invariants` (`zip` stops at the shorter sequence;
`result_unit.get('id')` raises `AttributeError` on a non-dict element and
compares unequal to the candidate id unless it is that exact string). -/
def checkIdsZip : List Json → List Candidate → Except PyErr Bool
  | _, [] => .ok true
  | [], _ :: _ => .ok true
  | e :: es, c :: cs =>
    match e with
    | .obj kvs =>
      match jlookup kvs "id" with
      | some (.str s) => if s = c.id then checkIdsZip es cs else .ok false
      | some _ => .ok false
      | none => .ok false
    | _ => .error .attributeError

/-- Port of `NormalizerRunner._validate_invariants`: unit count equals
candidate count and ids match positionally.  Exceptions escape to the caller
(where the source's `try` catches them); each statement of the source is one
explicit sequencing step here. -/
def validate_invariants (result : Json) (cands : List Candidate) :
    Except PyErr Bool :=
  match pyGetDefault result "units" (.arr []) with
  | .error e => .error e
  | .ok unitsD =>
    match pyLen unitsD with
    | .error e => .error e
    | .ok n =>
      if n ≠ cands.length then .ok false
      else
        match pySubscript result "units" with
        | .error e => .error e
        | .ok us =>
          match pyIter us with
          | .error e => .error e
          | .ok elems => checkIdsZip elems cands

/-- The retry loop of `_normalize_with_retry`: `attempt` is the current
attempt index, `left` the number of further attempts allowed
(`max_retries - attempt`).  Returns the final result together with the
number of categorizer calls made.  An attempt that raises, fails the
invariant check (or raises inside it), or fails schema validation is retried
while attempts remain, then the deterministic fallback is returned. -/
def retryLoop (beh : Nat → Option Json) (video_id : String) (cands : List Candidate) :
    Nat → Nat → Json × Nat
  | attempt, left =>
    match beh attempt with
    | none =>
      match left with
      | 0 => (create_fallback video_id cands, attempt + 1)
      | l + 1 => retryLoop beh video_id cands (attempt + 1) l
    | some result =>
      match validate_invariants result cands with
      | .ok true =>
        if validate_normalized result then (result, attempt + 1)
        else
          match left with
          | 0 => (create_fallback video_id cands, attempt + 1)
          | l + 1 => retryLoop beh video_id cands (attempt + 1) l
      | _ =>
        match left with
        | 0 => (create_fallback video_id cands, attempt + 1)
        | l + 1 => retryLoop beh video_id cands (attempt + 1) l

/-- The unit-building loop of `_reconstruct_from_cache` (raises `ValueError`
on a cache miss). -/
def reconstructUnits (data : Cache) (video_id : String) :
    List Candidate → Except PyErr (List Json)
  | [] => .ok []
  | c :: cs =>
    match cacheGet data video_id c.id with
    | some r =>
      match reconstructUnits data video_id cs with
      | .ok rest =>
        .ok (Json.obj
          [("id", .str c.id), ("type", .str r.type), ("name", .str r.name),
           ("summary", .str r.summary), ("confidence", .num r.confidence)] :: rest)
      | .error e => .error e
    | none => .error PyErr.valueError

/-- Port of `NormalizerRunner._reconstruct_from_cache`. -/
def reconstruct_from_cache (data : Cache) (video_id : String)
    (cands : List Candidate) : Except PyErr Json :=
  (reconstructUnits data video_id cands).map
    (fun units => .obj [("video_id", .str video_id), ("units", .arr units)])

/-- The per-unit loop of `_save_to_cache`: build a `CacheRecord` from the
unit's five fields and `set` it under the unit's id. -/
def saveUnits (video_id sig : String) : Cache → List Json → Except PyErr Cache
  | d, [] => .ok d
  | d, u :: us =>
    match pySubscript u "type", pySubscript u "name", pySubscript u "summary",
        pySubscript u "confidence", pySubscript u "id" with
    | .ok (.str t), .ok (.str n), .ok (.str s), .ok (.num cf), .ok (.str i) =>
      saveUnits video_id sig (cacheSet d video_id i ⟨t, n, s, cf, sig⟩) us
    | _, _, _, _, _ => .error .typeError

/-- Port of `NormalizerRunner._save_to_cache`.  Every result that reaches it
is either schema-valid or the fallback, so all five subscripted fields exist
with the `CacheRecord` field types; on other (unreachable) shapes the model
raises where Python would store an ill-typed record.  The final
`cache.save()` disk flush is modelled as the identity on the mapping. -/
def save_to_cache (data : Cache) (video_id : String) (result : Json)
    (sig : String) : Except PyErr Cache :=
  match pySubscript result "units" with
  | .error e => .error e
  | .ok us =>
    match pyIter us with
    | .error e => .error e
    | .ok elems => saveUnits video_id sig data elems

/-- The signature-invalidation loop at the start of `run`. -/
def invalidateAll (data : Cache) (video_id : String) (cands : List Candidate)
    (sig : String) : Cache :=
  cands.foldl (fun d c => invalidate_if_sig_mismatch d video_id c.id sig) data

/-- The result of `run`: the returned batch, the number of categorizer calls
made, and the cache mapping afterwards. -/
structure RunOut where
  out : Json
  calls : Nat
  cache : Cache

/-- Port of `NormalizerRunner.run`: invalidate mismatched signatures, serve
purely from cache when every candidate is cached, otherwise call the
categorizer with retry and save the result (with the disk flush modelled as
the identity).  The source binds the invalidated mapping and retry result to
locals; they are written out here. -/
def run (data : Cache) (video_id : String) (cands : List Candidate)
    (beh : Nat → Option Json) (sig : String) (max_retries : Nat) :
    Except PyErr RunOut :=
  if cands.all (fun c =>
      cacheHas (invalidateAll data video_id cands sig) video_id c.id) then
    (reconstruct_from_cache (invalidateAll data video_id cands sig)
        video_id cands).map
      (fun out => ⟨out, 0, invalidateAll data video_id cands sig⟩)
  else
    (save_to_cache (invalidateAll data video_id cands sig) video_id
        (retryLoop beh video_id cands 0 max_retries).1 sig).map
      (fun d2 => ⟨(retryLoop beh video_id cands 0 max_retries).1,
                  (retryLoop beh video_id cands 0 max_retries).2, d2⟩)

/-- The `id` field of one batch unit, when it is an object with a string
`id`. -/
def unitIdOf (u : Json) : Option String :=
  match u with
  | .obj fs =>
    match jlookup fs "id" with
    | some (.str s) => some s
    | _ => none
  | _ => none

/-- The id sequence of a list of batch units, when every one is an object
with a string `id`. -/
def idsOfUnits : List Json → Option (List String)
  | [] => some []
  | u :: us =>
    match unitIdOf u, idsOfUnits us with
    | some s, some rest => some (s :: rest)
    | _, _ => none

/-- The id sequence of a batch's `units`, when the batch has the well-formed
shape (an object whose `units` is an array of objects with string `id`s). -/
def idsOf (j : Json) : Option (List String) :=
  match j with
  | .obj kvs =>
    match jlookup kvs "units" with
    | some (.arr us) => idsOfUnits us
    | _ => none
  | _ => none

/-- The `units` value of a batch, when present. -/
def unitsOf (j : Json) : Option Json :=
  match j with
  | .obj kvs => jlookup kvs "units"
  | _ => none

/-- Record well-formedness for cached records: exactly the bounds the item
schema puts on the corresponding fields. -/
def recordOK (r : CacheRecord) : Prop :=
  r.type ∈ TYPE_ENUM ∧
  1 ≤ r.name.length ∧ r.name.length ≤ 80 ∧
  1 ≤ r.summary.length ∧ r.summary.length ≤ 300 ∧
  0 ≤ r.confidence ∧ r.confidence ≤ 1

instance (r : CacheRecord) : Decidable (recordOK r) := by
  unfold recordOK; infer_instance

/-! ## Order properties of the sort relations -/

theorem lexLt_asymm : ∀ a b : List Char, lexLt a b = true → lexLt b a = false
  | [], [], h => by simp [lexLt] at h
  | [], _ :: _, _ => by simp [lexLt]
  | _ :: _, [], h => by simp [lexLt] at h
  | a :: as, b :: bs, h => by
    simp only [lexLt, Bool.or_eq_true, Bool.and_eq_true, decide_eq_true_eq] at h ⊢
    simp only [Bool.or_eq_false_iff, Bool.and_eq_false_iff, decide_eq_false_iff_not]
    rcases h with h | ⟨he, hl⟩
    · constructor
      · omega
      · left; omega
    · constructor
      · omega
      · right
        have := lexLt_asymm as bs hl
        simp [this]

theorem lexLt_connex : ∀ c a b : List Char,
    lexLt c a = true → lexLt c b = true ∨ lexLt b a = true
  | [], [], _, h => by simp [lexLt] at h
  | [], _ :: _, [], _ => by simp [lexLt]
  | [], _ :: _, _ :: _, _ => by left; simp [lexLt]
  | _ :: _, [], _, h => by simp [lexLt] at h
  | _ :: _, _ :: _, [], _ => by right; simp [lexLt]
  | c :: cs, a :: as, b :: bs, h => by
    simp only [lexLt, Bool.or_eq_true, Bool.and_eq_true, decide_eq_true_eq] at h ⊢
    rcases h with h | ⟨he, hl⟩
    · rcases Nat.lt_trichotomy c.toNat b.toNat with h2 | h2 | h2
      · left; left; exact h2
      · right; left; omega
      · right; left; omega
    · rcases Nat.lt_trichotomy c.toNat b.toNat with h2 | h2 | h2
      · left; left; exact h2
      · rcases lexLt_connex cs as bs hl with h3 | h3
        · left; right; exact ⟨h2, h3⟩
        · right; right; exact ⟨by omega, h3⟩
      · right; left; omega

theorem lexLe_total (a b : List Char) : lexLe a b = true ∨ lexLe b a = true := by
  unfold lexLe
  cases h : lexLt b a
  · left; rfl
  · right
    simp [lexLt_asymm b a h]

theorem lexLe_trans {a b c : List Char}
    (h1 : lexLe a b = true) (h2 : lexLe b c = true) : lexLe a c = true := by
  unfold lexLe at *
  cases h : lexLt c a
  · rfl
  · rcases lexLt_connex c a b h with h3 | h3
    · simp [h3] at h2
    · simp [h3] at h1

instance rout_trans : IsTrans Unit rout := by
  constructor
  intro a b c hab hbc
  rcases hab with h | ⟨e, l⟩ <;> rcases hbc with h' | ⟨e', l'⟩
  · left; omega
  · left; omega
  · left; omega
  · right; exact ⟨e.trans e', lexLe_trans l l'⟩

instance rout_total : IsTotal Unit rout := by
  constructor
  intro a b
  rcases Nat.lt_trichotomy a.start b.start with h | h | h
  · left; left; exact h
  · rcases lexLe_total a.text b.text with hl | hl
    · left; right; exact ⟨h, hl⟩
    · right; right; exact ⟨h.symm, hl⟩
  · right; left; exact h

instance rquota_trans : IsTrans Unit rquota := by
  constructor
  intro a b c hab hbc
  rcases hab with h | ⟨e, l⟩ <;> rcases hbc with h' | ⟨e', l'⟩
  · left; omega
  · left; omega
  · left; omega
  · right; exact ⟨e.trans e', rout_trans.trans a b c l l'⟩

instance rquota_total : IsTotal Unit rquota := by
  constructor
  intro a b
  rcases Int.lt_trichotomy (quant a.score) (quant b.score) with h | h | h
  · right; left; exact h
  · rcases rout_total.total a b with hl | hl
    · left; right; exact ⟨h, hl⟩
    · right; right; exact ⟨h.symm, hl⟩
  · left; left; exact h

instance rrank_trans : IsTrans Unit rrank := by
  constructor
  intro a b c hab hbc
  rcases hab with h | ⟨e, hw⟩ <;> rcases hbc with h' | ⟨e', hw'⟩
  · left; omega
  · left; omega
  · left; omega
  · right
    refine ⟨e.trans e', ?_⟩
    rcases hw with h | ⟨ew, l⟩ <;> rcases hw' with h' | ⟨ew', l'⟩
    · left; omega
    · left; omega
    · left; omega
    · right; exact ⟨ew.trans ew', rout_trans.trans a b c l l'⟩

instance rrank_total : IsTotal Unit rrank := by
  constructor
  intro a b
  rcases Int.lt_trichotomy (quant a.score) (quant b.score) with h | h | h
  · right; left; exact h
  · rcases Nat.lt_trichotomy a.window b.window with h2 | h2 | h2
    · left; right; exact ⟨h, Or.inl h2⟩
    · rcases rout_total.total a b with hl | hl
      · left; right; exact ⟨h, Or.inr ⟨h2, hl⟩⟩
      · right; right; exact ⟨h.symm, Or.inr ⟨h2.symm, hl⟩⟩
    · right; right; exact ⟨h.symm, Or.inl h2⟩
  · left; left; exact h

/-! ## Plumbing lemmas for the extraction pipeline -/

theorem foldl_append_sublist {α} (f : List α → α → List α)
    (hf : ∀ acc u, f acc u = acc ∨ f acc u = acc ++ [u]) :
    ∀ (l acc : List α), List.Sublist (l.foldl f acc) (acc ++ l) := by
  intro l
  induction l with
  | nil => intro acc; simp
  | cons u l ih =>
    intro acc
    simp only [List.foldl_cons]
    have h2 : List.Sublist (f acc u) (acc ++ [u]) := by
      rcases hf acc u with h | h
      · rw [h]; exact List.sublist_append_left acc [u]
      · rw [h]
    have h3 := ih (f acc u)
    have h4 := List.Sublist.append_right h2 l
    have h5 := List.Sublist.trans h3 h4
    simpa using h5

theorem collapseNear_sublist (jt : ℚ) (l : List Unit) :
    List.Sublist (collapseNear jt l) l := by
  have h := foldl_append_sublist
    (fun collapsed u =>
      match collapsed.getLast? with
      | some last =>
        if jt ≤ jaccard3 u.text last.text then collapsed else collapsed ++ [u]
      | none => collapsed ++ [u])
    (by
      intro acc u
      cases h : acc.getLast? with
      | none => right; simp only [h]
      | some last =>
        simp only [h]
        by_cases hj : jt ≤ jaccard3 u.text last.text
        · left; rw [if_pos hj]
        · right; rw [if_neg hj])
    l []
  simpa [collapseNear] using h

theorem dictSet_of_no_key {m : List (List Char × Unit)} {k : List Char} {v : Unit}
    (h : m.any (fun p => decide (p.1 = k)) = false) :
    dictSet m k v = m ++ [(k, v)] := by
  simp only [dictSet, h, Bool.false_eq_true, if_false]

theorem dictSet_of_key {m : List (List Char × Unit)} {k : List Char} {v : Unit}
    (h : m.any (fun p => decide (p.1 = k)) = true) :
    dictSet m k v = m.map (fun p => if p.1 = k then (k, v) else p) := by
  simp only [dictSet, h, if_true]

/-- The invariant maintained by the exact-deduplication fold: keys are
distinct, each entry's key is the `canon_text` of its value, each value was
processed, each value's `start` is minimal among processed candidates sharing
its key, and every processed candidate's key is present. -/
def DFInv (m : List (List Char × Unit)) (processed : List Unit) : Prop :=
  (m.map Prod.fst).Nodup ∧
  (∀ p ∈ m, canon_text p.2.text = p.1 ∧ p.2 ∈ processed ∧
    ∀ d ∈ processed, canon_text d.text = p.1 → p.2.start ≤ d.start) ∧
  (∀ d ∈ processed, ∃ p ∈ m, p.1 = canon_text d.text)

theorem DFInv_step {m : List (List Char × Unit)} {processed : List Unit}
    (c : Unit) (h : DFInv m processed) : DFInv (dedupeStep m c) (processed ++ [c]) := by
  obtain ⟨hnd, hent, hcomp⟩ := h
  unfold dedupeStep
  cases hf : m.find? (fun p => decide (p.1 = canon_text c.text)) with
  | none =>
    have hnone : ∀ p ∈ m, ¬ p.1 = canon_text c.text := by
      intro p hp
      have := List.find?_eq_none.mp hf p hp
      simpa using this
    have hany : m.any (fun p => decide (p.1 = canon_text c.text)) = false := by
      simp only [List.any_eq_false, decide_eq_true_eq]
      exact hnone
    rw [dictSet_of_no_key hany]
    refine ⟨?_, ?_, ?_⟩
    · simp only [List.map_append, List.map_cons, List.map_nil]
      refine List.Nodup.append hnd (List.nodup_singleton _) ?_
      intro a ha hb
      simp only [List.mem_singleton] at hb
      subst hb
      obtain ⟨p, hp, hpk⟩ := List.mem_map.mp ha
      exact hnone p hp hpk
    · intro p hp
      rcases List.mem_append.mp hp with hpm | hps
      · obtain ⟨hk, hmem, hmin⟩ := hent p hpm
        refine ⟨hk, List.mem_append_left _ hmem, ?_⟩
        intro d hd hdk
        rcases List.mem_append.mp hd with hd | hd
        · exact hmin d hd hdk
        · simp only [List.mem_singleton] at hd
          rw [hd] at hdk
          exact absurd hdk.symm (hnone p hpm)
      · simp only [List.mem_singleton] at hps
        subst hps
        refine ⟨rfl, List.mem_append_right _ (List.mem_singleton_self c), ?_⟩
        intro d hd hdk
        rcases List.mem_append.mp hd with hd | hd
        · obtain ⟨p', hp', hp'k⟩ := hcomp d hd
          exact absurd (hp'k.trans hdk) (hnone p' hp')
        · simp only [List.mem_singleton] at hd
          rw [hd]
    · intro d hd
      rcases List.mem_append.mp hd with hd | hd
      · obtain ⟨p', hp', hp'k⟩ := hcomp d hd
        exact ⟨p', List.mem_append_left _ hp', hp'k⟩
      · simp only [List.mem_singleton] at hd
        rw [hd]
        exact ⟨(canon_text c.text, c), List.mem_append_right _ (List.mem_singleton_self _), rfl⟩
  | some p =>
    have hpm : p ∈ m := List.mem_of_find?_eq_some hf
    have hpk : p.1 = canon_text c.text := by
      have := List.find?_some hf
      simpa using this
    have hany : m.any (fun q => decide (q.1 = canon_text c.text)) = true := by
      simp only [List.any_eq_true, decide_eq_true_eq]
      exact ⟨p, hpm, hpk⟩
    change DFInv (if c.start < p.2.start then
      dictSet m (canon_text c.text) c else m) (processed ++ [c])
    by_cases hlt : c.start < p.2.start
    · rw [if_pos hlt, dictSet_of_key hany]
      refine ⟨?_, ?_, ?_⟩
      · have hfst : (m.map (fun q => if q.1 = canon_text c.text then
            (canon_text c.text, c) else q)).map Prod.fst = m.map Prod.fst := by
          rw [List.map_map]
          apply List.map_congr_left
          intro q _
          by_cases hq1 : q.1 = canon_text c.text
          · simp [Function.comp, hq1]
          · simp [Function.comp, hq1]
        rw [hfst]
        exact hnd
      · intro q' hq'
        obtain ⟨q, hq, hrepl⟩ := List.mem_map.mp hq'
        by_cases hq1 : q.1 = canon_text c.text
        · rw [if_pos hq1] at hrepl
          subst hrepl
          refine ⟨rfl, List.mem_append_right _ (List.mem_singleton_self c), ?_⟩
          intro d hd hdk
          rcases List.mem_append.mp hd with hd | hd
          · obtain ⟨_, _, hminp⟩ := hent p hpm
            have := hminp d hd (hdk.trans hpk.symm)
            show c.start ≤ d.start
            omega
          · simp only [List.mem_singleton] at hd
            rw [hd]
        · rw [if_neg hq1] at hrepl
          subst hrepl
          obtain ⟨hk, hmem, hmin⟩ := hent q hq
          refine ⟨hk, List.mem_append_left _ hmem, ?_⟩
          intro d hd hdk
          rcases List.mem_append.mp hd with hd | hd
          · exact hmin d hd hdk
          · simp only [List.mem_singleton] at hd
            rw [hd] at hdk
            exact absurd hdk.symm hq1
      · intro d hd
        rcases List.mem_append.mp hd with hd | hd
        · obtain ⟨p', hp', hp'k⟩ := hcomp d hd
          refine ⟨if p'.1 = canon_text c.text then (canon_text c.text, c) else p',
            List.mem_map.mpr ⟨p', hp', rfl⟩, ?_⟩
          by_cases hh : p'.1 = canon_text c.text
          · rw [if_pos hh]
            exact hh.symm.trans hp'k
          · rw [if_neg hh]
            exact hp'k
        · simp only [List.mem_singleton] at hd
          rw [hd]
          refine ⟨(canon_text c.text, c), List.mem_map.mpr ⟨p, hpm, ?_⟩, rfl⟩
          rw [if_pos hpk]
    · rw [if_neg hlt]
      refine ⟨hnd, ?_, ?_⟩
      · intro q hq
        obtain ⟨hk, hmem, hmin⟩ := hent q hq
        refine ⟨hk, List.mem_append_left _ hmem, ?_⟩
        intro d hd hdk
        rcases List.mem_append.mp hd with hd | hd
        · exact hmin d hd hdk
        · simp only [List.mem_singleton] at hd
          rw [hd] at hdk ⊢
          have hqp : q = p :=
            List.inj_on_of_nodup_map hnd hq hpm (hdk.symm.trans hpk.symm)
          rw [hqp]
          omega
      · intro d hd
        rcases List.mem_append.mp hd with hd | hd
        · exact hcomp d hd
        · simp only [List.mem_singleton] at hd
          rw [hd]
          exact ⟨p, hpm, hpk⟩
theorem dedupeFold_inv (cs : List Unit) : DFInv (dedupeFold cs) cs := by
  have aux : ∀ (l : List Unit) (m : List (List Char × Unit)) (processed : List Unit),
      DFInv m processed → DFInv (l.foldl dedupeStep m) (processed ++ l) := by
    intro l
    induction l with
    | nil => intro m processed h; simpa using h
    | cons c l ih =>
      intro m processed h
      have h1 := DFInv_step c h
      have h2 := ih (dedupeStep m c) (processed ++ [c]) h1
      simpa using h2
  have h0 : DFInv [] [] := by
    refine ⟨List.nodup_nil, ?_, ?_⟩
    · intro p hp
      exact absurd hp (List.not_mem_nil p)
    · intro d hd
      exact absurd hd (List.not_mem_nil d)
  simpa using aux cs [] [] h0

theorem sentCandidate_some {transcript transcript_norm : List Char} {total_len : Nat}
    {opts : ExtractOptions} {w : Window} {sen : Sent} {u : Unit}
    (h : sentCandidate transcript transcript_norm total_len opts w sen = some u) :
    (opts.min_words ≤ words u.text ∧ words u.text ≤ opts.max_words) ∧
    u.score = 0.4 * (occurrences transcript_norm (canon_text u.text) : ℚ)
      + 0.2 * (1 - (u.start : ℚ) / (total_len : ℚ))
      + 0.2 * (((min (words u.text) opts.max_words : Nat) : ℚ) / (opts.max_words : ℚ))
      + 0.2 * (imperative_boost u.text : ℚ) := by
  simp only [sentCandidate] at h
  split at h
  · exact absurd h (by simp)
  · rename_i hband
    simp only [Option.some.injEq] at h
    subst h
    refine ⟨⟨?_, ?_⟩, rfl⟩
    · dsimp only
      omega
    · dsimp only
      omega

theorem mem_candidatesList_spec {transcript : List Char} {opts : ExtractOptions} {u : Unit}
    (hu : u ∈ candidatesList transcript opts) :
    (opts.min_words ≤ words u.text ∧ words u.text ≤ opts.max_words) ∧
    u.score = 0.4 * (occurrences (canon_text transcript) (canon_text u.text) : ℚ)
      + 0.2 * (1 - (u.start : ℚ) / (transcript.length : ℚ))
      + 0.2 * (((min (words u.text) opts.max_words : Nat) : ℚ) / (opts.max_words : ℚ))
      + 0.2 * (imperative_boost u.text : ℚ) := by
  unfold candidatesList at hu
  obtain ⟨w, _, hu⟩ := List.mem_flatMap.mp hu
  have hu' : u ∈ (sentence_split w.text).filterMap
      (sentCandidate transcript (canon_text transcript) transcript.length opts w) := by
    simp only [windowCandidates] at hu
    rcases hq : opts.per_window_quota with _ | q
    · simp only [hq] at hu
      exact hu
    · simp only [hq] at hu
      split at hu
      · have h1 := List.mem_of_mem_take hu
        simpa using h1
      · exact hu
  obtain ⟨sen, _, hs⟩ := List.mem_filterMap.mp hu'
  exact sentCandidate_some hs

theorem units_subset_survivors {transcript : List Char} {opts : ExtractOptions} {u : Unit}
    (hu : u ∈ (extract_deterministic_units transcript opts).units) :
    u ∈ survivors transcript opts := by
  simp only [extract_deterministic_units] at hu
  rw [List.mem_insertionSort] at hu
  have h1 := List.mem_of_mem_take hu
  rw [List.mem_insertionSort] at h1
  exact h1

theorem survivors_subset_deduped {transcript : List Char} {opts : ExtractOptions} {u : Unit}
    (hu : u ∈ survivors transcript opts) :
    u ∈ dedupedOf (candidatesList transcript opts) := by
  unfold survivors at hu
  have h1 := (collapseNear_sublist opts.jaccard_threshold _).subset hu
  rw [List.mem_insertionSort] at h1
  exact h1

theorem deduped_subset {cs : List Unit} {u : Unit} (hu : u ∈ dedupedOf cs) : u ∈ cs := by
  obtain ⟨p, hp, hpu⟩ := List.mem_map.mp hu
  obtain ⟨_, hmem, _⟩ := (dedupeFold_inv cs).2.1 p hp
  exact hpu ▸ hmem

theorem units_subset_candidates {transcript : List Char} {opts : ExtractOptions} {u : Unit}
    (hu : u ∈ (extract_deterministic_units transcript opts).units) :
    u ∈ candidatesList transcript opts :=
  deduped_subset (survivors_subset_deduped (units_subset_survivors hu))

theorem units_min_start {transcript : List Char} {opts : ExtractOptions} {u : Unit}
    (hu : u ∈ (extract_deterministic_units transcript opts).units) :
    ∀ c ∈ candidatesList transcript opts,
      canon_text c.text = canon_text u.text → u.start ≤ c.start := by
  have hd := survivors_subset_deduped (units_subset_survivors hu)
  obtain ⟨p, hp, hpu⟩ := List.mem_map.mp hd
  obtain ⟨hk, _, hmin⟩ := (dedupeFold_inv (candidatesList transcript opts)).2.1 p hp
  intro c hc hck
  have hck' : canon_text c.text = p.1 := by
    rw [hck, ← hpu, hk]
  rw [← hpu]
  exact hmin c hc hck'

theorem deduped_nodup_canon (cs : List Unit) :
    ((dedupedOf cs).map (fun u => canon_text u.text)).Nodup := by
  obtain ⟨hnd, hent, _⟩ := dedupeFold_inv cs
  have h1 : (dedupedOf cs).map (fun u => canon_text u.text)
      = (dedupeFold cs).map Prod.fst := by
    unfold dedupedOf
    rw [List.map_map]
    apply List.map_congr_left
    intro p hp
    simpa using (hent p hp).1
  rw [h1]
  exact hnd

theorem units_nodup_canon (transcript : List Char) (opts : ExtractOptions) :
    ((extract_deterministic_units transcript opts).units.map
      (fun u => canon_text u.text)).Nodup := by
  have h1 := deduped_nodup_canon (candidatesList transcript opts)
  have h2 : ((List.insertionSort rout (dedupedOf (candidatesList transcript opts))).map
      (fun u => canon_text u.text)).Nodup :=
    ((List.perm_insertionSort rout _).map _).nodup_iff.mpr h1
  have h3 : ((survivors transcript opts).map (fun u => canon_text u.text)).Nodup :=
    ((collapseNear_sublist opts.jaccard_threshold _).map _).nodup h2
  have h4 : ((List.insertionSort rrank (survivors transcript opts)).map
      (fun u => canon_text u.text)).Nodup :=
    ((List.perm_insertionSort rrank _).map _).nodup_iff.mpr h3
  have h5 : (((List.insertionSort rrank (survivors transcript opts)).take
      (match opts.target_count with
       | some t => t
       | none => defaultTarget transcript.length)).map
        (fun u => canon_text u.text)).Nodup :=
    ((List.take_sublist _ _).map _).nodup h4
  simp only [extract_deterministic_units]
  exact ((List.perm_insertionSort rout _).map _).nodup_iff.mpr h5

theorem units_length (transcript : List Char) (opts : ExtractOptions) :
    (extract_deterministic_units transcript opts).units.length =
      min (match opts.target_count with
           | some t => t
           | none => defaultTarget transcript.length)
        (survivors transcript opts).length := by
  simp only [extract_deterministic_units, List.length_insertionSort, List.length_take]

theorem units_length_some {transcript : List Char} {opts : ExtractOptions} {t : Nat}
    (ht : opts.target_count = some t) :
    (extract_deterministic_units transcript opts).units.length
      = min t (survivors transcript opts).length := by
  have h := units_length transcript opts
  rw [ht] at h
  exact h

theorem units_length_none {transcript : List Char} {opts : ExtractOptions}
    (ht : opts.target_count = none) :
    (extract_deterministic_units transcript opts).units.length
      = min (defaultTarget transcript.length) (survivors transcript opts).length := by
  have h := units_length transcript opts
  rw [ht] at h
  exact h

/-! ## Claim theorems for the extractor -/

/-- C5: every sentence candidate retained by extraction (word count within
`[min_words, max_words]`) has
`score = 0.4*occ + 0.2*early + 0.2*len_norm + 0.2*imperative`, where
`occ = occurrences(canon_text transcript, canon_text text)` — which equals
`1 +` the non-overlapping occurrence count whenever the candidate's
`canon_text` is nonempty — `early = 1 - start/len(transcript)`,
`len_norm = min(word count, max_words)/max_words`, and `imperative` is the
0/1 output of the imperative-pattern regex on the canonicalized text. -/
theorem c5_score_formula (transcript : List Char) (opts : ExtractOptions) (u : Unit)
    (hu : u ∈ candidatesList transcript opts) :
    u.score = 0.4 * (occurrences (canon_text transcript) (canon_text u.text) : ℚ)
      + 0.2 * (1 - (u.start : ℚ) / (transcript.length : ℚ))
      + 0.2 * (((min (words u.text) opts.max_words : Nat) : ℚ) / (opts.max_words : ℚ))
      + 0.2 * (imperative_boost u.text : ℚ) ∧
    (canon_text u.text ≠ [] →
      occurrences (canon_text transcript) (canon_text u.text)
        = 1 + countOccAux (canon_text u.text) (canon_text transcript)) := by
  refine ⟨(mem_candidatesList_spec hu).2, ?_⟩
  intro hne
  simp [occurrences, List.isEmpty_iff, hne]

/-- C6: the units of every extraction result are sorted ascending by the pair
`(start, text)`, with `text` compared lexicographically as the tie-break. -/
theorem c6_output_ordering (transcript : List Char) (opts : ExtractOptions) :
    List.Sorted (fun u v : Unit => u.start < v.start ∨
      (u.start = v.start ∧ lexLe u.text v.text = true))
      (extract_deterministic_units transcript opts).units := by
  simp only [extract_deterministic_units]
  exact List.sorted_insertionSort rout _

/-- C7: with `target_count` set the result has at most that many units; with
it unset the result has exactly `clamp(round(len(transcript)/2500), 40, 90)`
units when at least that many candidates survive deduplication, and exactly
the number of surviving candidates otherwise. -/
theorem c7_target_count (transcript : List Char) (opts : ExtractOptions) :
    (∀ t, opts.target_count = some t →
      (extract_deterministic_units transcript opts).units.length ≤ t) ∧
    (opts.target_count = none →
      (defaultTarget transcript.length ≤ (survivors transcript opts).length →
        (extract_deterministic_units transcript opts).units.length
          = defaultTarget transcript.length) ∧
      ((survivors transcript opts).length < defaultTarget transcript.length →
        (extract_deterministic_units transcript opts).units.length
          = (survivors transcript opts).length)) := by
  constructor
  · intro t ht
    rw [units_length_some ht]
    exact Nat.min_le_left _ _
  · intro ht
    constructor
    · intro hge
      rw [units_length_none ht]
      exact Nat.min_eq_left hge
    · intro hlt
      rw [units_length_none ht]
      exact Nat.min_eq_right (Nat.le_of_lt hlt)

/-- C8: no two units of an extraction result share the `canon_text` of their
text, and every emitted unit has the smallest `start` among all scored
candidates sharing its `canon_text` (exact-duplicate groups keep the earliest
candidate). -/
theorem c8_exact_dedup (transcript : List Char) (opts : ExtractOptions) :
    ((extract_deterministic_units transcript opts).units.map
      (fun u => canon_text u.text)).Nodup ∧
    ∀ u ∈ (extract_deterministic_units transcript opts).units,
      ∀ c ∈ candidatesList transcript opts,
        canon_text c.text = canon_text u.text → u.start ≤ c.start :=
  ⟨units_nodup_canon transcript opts, fun _ hu => units_min_start hu⟩

/-- C10: with `min_words ≥ 1` every unit of an extraction result has a word
count within `[min_words, max_words]` — the whole-window fallback sentence
passes through the same word-count filter as every other candidate (a window
in which the sentence regex finds no match yields its whole text as the
single candidate sentence). -/
theorem c10_word_band (transcript : List Char) (opts : ExtractOptions)
    (_hmin : 1 ≤ opts.min_words) :
    (∀ u ∈ (extract_deterministic_units transcript opts).units,
      opts.min_words ≤ words u.text ∧ words u.text ≤ opts.max_words) ∧
    (∀ wtext : List Char, scanSentences wtext 0 = [] → pyStrip wtext ≠ [] →
      sentence_split wtext = [⟨wtext, 0, wtext.length⟩]) := by
  constructor
  · intro u hu
    exact (mem_candidatesList_spec (units_subset_candidates hu)).1
  · intro wtext h1 h2
    simp [sentence_split, h1, List.isEmpty_iff, h2]

/-! ## The windowing partition (C4) -/

theorem matchesAt_length_le : ∀ {n h : List Char}, matchesAt n h = true → n.length ≤ h.length
  | [], _, _ => by simp
  | _ :: _, [], hm => by simp [matchesAt] at hm
  | a :: as, b :: bs, hm => by
    simp only [matchesAt, Bool.and_eq_true] at hm
    have := matchesAt_length_le hm.2
    simp only [List.length_cons]
    omega

theorem rfindDotSpace_bound {l : List Char} {b : Nat} (h : rfindDotSpace l = some b) :
    b + 2 ≤ l.length := by
  unfold rfindDotSpace at h
  have hmem := List.mem_of_getLast?_eq_some h
  rw [List.mem_filter] at hmem
  obtain ⟨hrange, hpred⟩ := hmem
  rw [List.mem_range] at hrange
  have hle := matchesAt_length_le hpred
  simp only [List.length_cons, List.length_nil, List.length_drop] at hle
  omega

theorem slice_length (s : List Char) (a b : Nat) :
    (slice s a b).length = min b s.length - a := by
  simp [slice, List.length_drop, List.length_take]

theorem windowEnd_gt {s : List Char} {wc i : Nat} (hwc : 1 ≤ wc) (hi : i < s.length) :
    i < windowEnd s wc i := by
  simp only [windowEnd]
  split
  · split
    · split
      · omega
      · omega
    · omega
  · omega

theorem windowEnd_le {s : List Char} {wc i : Nat} (_hi : i < s.length) :
    windowEnd s wc i ≤ s.length := by
  simp only [windowEnd]
  split
  · rename_i hmin
    split
    · rename_i b hr
      have hb := rfindDotSpace_bound hr
      rw [slice_length] at hb
      split
      · omega
      · omega
    · omega
  · omega

/-- The default window used by the index-based statements. -/
def wdflt : Window := ⟨0, 0, [], 0⟩

/-- The chain of properties produced by the window loop from position `i`
with next index `idx`: each window starts where the loop stood, ends at
`windowEnd` of its start, carries the running index and the corresponding
slice, and the chain continues from its end; an empty chain means the loop
stood at the end of the string. -/
def WindowChain (s : List Char) (wc : Nat) : List Window → Nat → Nat → Prop
  | [], i, _ => i = s.length
  | w :: ws, i, idx =>
    w.start = i ∧ w.stop = windowEnd s wc i ∧ w.index = idx ∧
      w.text = slice s i w.stop ∧ WindowChain s wc ws w.stop (idx + 1)

theorem windowsAux_chain (s : List Char) (wc : Nat) (hwc : 1 ≤ wc) :
    ∀ n i idx, s.length - i = n → i ≤ s.length →
      WindowChain s wc (windowsAux s wc i idx) i idx := by
  intro n
  induction n using Nat.strong_induction_on with
  | _ n ih =>
    intro i idx hn hi
    rw [windowsAux_eq]
    by_cases hlt : i < s.length
    · rw [if_pos hlt]
      have he := windowEnd_gt hwc hlt
      rw [if_pos he]
      have hele := @windowEnd_le s wc i hlt
      refine ⟨rfl, rfl, rfl, rfl, ?_⟩
      exact ih (s.length - windowEnd s wc i) (by omega) _ _ rfl hele
    · rw [if_neg hlt]
      show i = s.length
      omega

theorem getLastD_irrel {α} (a x y : α) (l : List α) :
    (a :: l).getLastD x = (a :: l).getLastD y := by
  rw [List.getLastD_cons, List.getLastD_cons]

theorem WindowChain_props (s : List Char) (wc : Nat) :
    ∀ (ws : List Window) (i idx : Nat), WindowChain s wc ws i idx →
      (∀ k, k < ws.length → (ws.getD k wdflt).index = idx + k) ∧
      (∀ k, k < ws.length →
        (ws.getD k wdflt).stop = windowEnd s wc ((ws.getD k wdflt).start)) ∧
      (ws ≠ [] → (ws.getD 0 wdflt).start = i) ∧
      (∀ k, k + 1 < ws.length →
        (ws.getD (k + 1) wdflt).start = (ws.getD k wdflt).stop) ∧
      (ws ≠ [] → (ws.getLastD wdflt).stop = s.length) ∧
      (ws = [] → i = s.length) := by
  intro ws
  induction ws with
  | nil =>
    intro i idx hch
    refine ⟨?_, ?_, ?_, ?_, ?_, ?_⟩
    · intro k hk; simp at hk
    · intro k hk; simp at hk
    · intro h; exact absurd rfl h
    · intro k hk; simp at hk
    · intro h; exact absurd rfl h
    · intro _; exact hch
  | cons w ws ihw =>
    intro i idx hch
    obtain ⟨hstart, hstop, hindex, htext, hrest⟩ := hch
    obtain ⟨ihA, ihB, ihC, ihD, ihE, ihF⟩ := ihw w.stop (idx + 1) hrest
    refine ⟨?_, ?_, ?_, ?_, ?_, ?_⟩
    · intro k hk
      cases k with
      | zero => simpa using hindex
      | succ k =>
        simp only [List.getD_cons_succ]
        have := ihA k (by simpa using hk)
        omega
    · intro k hk
      cases k with
      | zero =>
        simp only [List.getD_cons_zero]
        rw [hstop, hstart]
      | succ k =>
        simp only [List.getD_cons_succ]
        exact ihB k (by simpa using hk)
    · intro _
      simpa using hstart
    · intro k hk
      cases k with
      | zero =>
        simp only [List.getD_cons_succ, List.getD_cons_zero]
        cases ws with
        | nil => simp at hk
        | cons w' ws' =>
          have := ihC (by simp)
          simpa using this
      | succ k =>
        simp only [List.getD_cons_succ]
        exact ihD k (by simpa using hk)
    · intro _
      cases ws with
      | nil =>
        show w.stop = s.length
        exact ihF rfl
      | cons w' ws' =>
        have h1 : ((w :: w' :: ws').getLastD wdflt) = ((w' :: ws').getLastD wdflt) := by
          rw [List.getLastD_cons]
          exact (getLastD_irrel w' w wdflt ws')
        rw [h1]
        exact ihE (by simp)
    · intro h
      simp at h

/-- C4: for `window_chars ≥ 1`, `split_into_windows_by_chars` partitions the
string exactly once in order: indices are `0, 1, 2, …`, the first window
starts at offset 0, each subsequent window starts where the previous one
ended, the last window ends at `len(s)`, and every window's end is
`windowEnd` of its start — the tentative end `min(start + window_chars,
len(s))`, snapped to just after the last `". "` occurrence at a positive
offset when the tentative end is strictly before the end of the string. -/
theorem c4_windows_partition (s : List Char) (wc : Nat) (hwc : 1 ≤ wc) :
    (∀ k, k < (split_into_windows_by_chars s wc).length →
      ((split_into_windows_by_chars s wc).getD k wdflt).index = k) ∧
    (∀ k, k < (split_into_windows_by_chars s wc).length →
      ((split_into_windows_by_chars s wc).getD k wdflt).stop
        = windowEnd s wc (((split_into_windows_by_chars s wc).getD k wdflt).start)) ∧
    ((split_into_windows_by_chars s wc) ≠ [] →
      ((split_into_windows_by_chars s wc).getD 0 wdflt).start = 0) ∧
    (∀ k, k + 1 < (split_into_windows_by_chars s wc).length →
      ((split_into_windows_by_chars s wc).getD (k + 1) wdflt).start
        = ((split_into_windows_by_chars s wc).getD k wdflt).stop) ∧
    ((split_into_windows_by_chars s wc) ≠ [] →
      ((split_into_windows_by_chars s wc).getLastD wdflt).stop = s.length) ∧
    (s ≠ [] → (split_into_windows_by_chars s wc) ≠ []) := by
  have hch := windowsAux_chain s wc hwc (s.length - 0) 0 0 rfl (Nat.zero_le _)
  obtain ⟨hA, hB, hC, hD, hE, hF⟩ :=
    WindowChain_props s wc (windowsAux s wc 0 0) 0 0 hch
  simp only [split_into_windows_by_chars]
  refine ⟨?_, hB, hC, hD, hE, ?_⟩
  · intro k hk
    have := hA k hk
    omega
  · intro hs hws
    have := hF hws
    have hlen : s.length = 0 := this.symm
    exact hs (List.length_eq_zero.mp hlen)

/-! ## Runner lemmas -/

theorem idsOfUnits_map {α} (f : α → String) (gobj : α → Json) :
    ∀ (xs : List α), (∀ x ∈ xs, unitIdOf (gobj x) = some (f x)) →
      idsOfUnits (xs.map gobj) = some (xs.map f) := by
  intro xs
  induction xs with
  | nil => intro _; rfl
  | cons x xs ih =>
    intro h
    have hx := h x (List.mem_cons_self x xs)
    have hxs := ih (fun y hy => h y (List.mem_cons_of_mem x hy))
    simp [idsOfUnits, hx, hxs]

/-- C9: constructing a `NormalizerCache` never fails due to the state of the
cache file: the load always succeeds, and both a missing file and a file
whose contents fail to parse leave the cache as the empty mapping. -/
theorem c9_cache_load (file_state : Option (Except PyErr Json)) :
    (∃ d, nc_load file_state = Except.ok d) ∧
    nc_load none = Except.ok (Json.obj []) ∧
    (∀ e, nc_load (some (Except.error e)) = Except.ok (Json.obj [])) := by
  refine ⟨?_, rfl, fun _ => rfl⟩
  match file_state with
  | none => exact ⟨Json.obj [], rfl⟩
  | some (.ok v) => exact ⟨v, rfl⟩
  | some (.error _) => exact ⟨Json.obj [], rfl⟩

/-- C3: the fallback batch has exactly one entry per input candidate, in the
original input order, with `type = "component"`, `name = "(unclear)"`,
`summary` the candidate's text truncated to 280 characters and
`confidence = 0.3`; its unit ids echo the candidate ids in order, and its
`units` are a function of the candidates alone, independent of the
`video_id`. -/
theorem c3_fallback (video_id : String) (cands : List Candidate) :
    unitsOf (create_fallback video_id cands)
      = some (.arr (cands.map (fun c =>
          Json.obj [("id", .str c.id), ("type", .str "component"),
                    ("name", .str "(unclear)"), ("summary", .str (pyTake c.text 280)),
                    ("confidence", .num 0.3)]))) ∧
    idsOf (create_fallback video_id cands) = some (cands.map Candidate.id) ∧
    (∀ vid2 : String, unitsOf (create_fallback vid2 cands)
        = unitsOf (create_fallback video_id cands)) := by
  refine ⟨rfl, ?_, fun _ => rfl⟩
  simp only [idsOf, create_fallback]
  have hlk : jlookup [("video_id", Json.str video_id),
      ("units", Json.arr (cands.map (fun c =>
        Json.obj [("id", .str c.id), ("type", .str "component"),
                  ("name", .str "(unclear)"), ("summary", .str (pyTake c.text 280)),
                  ("confidence", .num 0.3)])))] "units"
      = some (Json.arr (cands.map (fun c =>
        Json.obj [("id", .str c.id), ("type", .str "component"),
                  ("name", .str "(unclear)"), ("summary", .str (pyTake c.text 280)),
                  ("confidence", .num 0.3)]))) := rfl
  rw [hlk]
  exact idsOfUnits_map Candidate.id _ cands (fun c _ => rfl)

theorem invalidate_noop_of_sig {data : Cache} {vid uid sig : String} {r : CacheRecord}
    (h : cacheGet data vid uid = some r) (hs : r.normalizer_sig = sig) :
    invalidate_if_sig_mismatch data vid uid sig = data := by
  unfold invalidate_if_sig_mismatch
  rw [h]
  simp [hs]

theorem invalidateAll_noop {data : Cache} {vid sig : String} :
    ∀ {cands : List Candidate},
      (∀ c ∈ cands, (cacheGet data vid c.id).map CacheRecord.normalizer_sig = some sig) →
      invalidateAll data vid cands sig = data := by
  intro cands
  induction cands with
  | nil => intro _; rfl
  | cons c cs ih =>
    intro h
    have hc := h c (List.mem_cons_self c cs)
    cases hget : cacheGet data vid c.id with
    | none =>
      rw [hget] at hc
      simp at hc
    | some r =>
      rw [hget] at hc
      simp only [Option.map_some', Option.some.injEq] at hc
      show List.foldl _ _ (c :: cs) = data
      simp only [List.foldl_cons]
      rw [invalidate_noop_of_sig hget hc]
      exact ih (fun d hd => h d (List.mem_cons_of_mem _ hd))

theorem reconstructUnits_ok {data : Cache} {vid : String} :
    ∀ {cands : List Candidate},
      (∀ c ∈ cands, (cacheGet data vid c.id).isSome = true) →
      ∃ us, reconstructUnits data vid cands = .ok us ∧
        idsOfUnits us = some (cands.map Candidate.id) ∧
        (∀ u ∈ us, ∃ (c : Candidate) (r : CacheRecord), cacheGet data vid c.id = some r ∧
          u = Json.obj [("id", .str c.id), ("type", .str r.type),
                        ("name", .str r.name), ("summary", .str r.summary),
                        ("confidence", .num r.confidence)]) := by
  intro cands
  induction cands with
  | nil =>
    intro _
    exact ⟨[], rfl, rfl, by intro u hu; exact absurd hu (List.not_mem_nil u)⟩
  | cons c cs ih =>
    intro h
    obtain ⟨us, h1, h2, h3⟩ := ih (fun d hd => h d (List.mem_cons_of_mem _ hd))
    cases hget : cacheGet data vid c.id with
    | none =>
      have := h c (List.mem_cons_self c cs)
      rw [hget] at this
      simp at this
    | some r =>
      refine ⟨Json.obj [("id", .str c.id), ("type", .str r.type),
          ("name", .str r.name), ("summary", .str r.summary),
          ("confidence", .num r.confidence)] :: us, ?_, ?_, ?_⟩
      · show (match cacheGet data vid c.id with
          | some r =>
            match reconstructUnits data vid cs with
            | .ok rest => Except.ok (Json.obj
                [("id", .str c.id), ("type", .str r.type), ("name", .str r.name),
                 ("summary", .str r.summary), ("confidence", .num r.confidence)] :: rest)
            | .error e => .error e
          | none => Except.error PyErr.valueError) = _
        rw [hget, h1]
      · simp only [idsOfUnits, h2, List.map_cons]
        rfl
      · intro u hu
        rcases List.mem_cons.mp hu with hu | hu
        · exact ⟨c, r, hget, hu⟩
        · exact h3 u hu

/-- C2: when, after signature invalidation, every candidate has a cache entry
carrying the runner's current signature, `run` makes zero categorizer calls,
returns a batch reconstructed purely from the cache, produces output
independent of the categorizer's behaviour, and a repeated invocation on the
resulting cache state returns the identical output. -/
theorem c2_cached_run (data : Cache) (video_id : String) (cands : List Candidate)
    (beh beh2 : Nat → Option Json) (sig : String) (max_retries : Nat)
    (H : ∀ c ∈ cands,
      (cacheGet (invalidateAll data video_id cands sig) video_id c.id).map
        CacheRecord.normalizer_sig = some sig) :
    run data video_id cands beh sig max_retries
      = run data video_id cands beh2 sig max_retries ∧
    (run data video_id cands beh sig max_retries).toOption.map RunOut.calls
      = some 0 ∧
    (run data video_id cands beh sig max_retries).toOption.map RunOut.out
      = (reconstruct_from_cache (invalidateAll data video_id cands sig)
          video_id cands).toOption ∧
    (∀ ro, run data video_id cands beh sig max_retries = .ok ro →
      run ro.cache video_id cands beh2 sig max_retries = .ok ro) := by
  have hsome : ∀ c ∈ cands,
      (cacheGet (invalidateAll data video_id cands sig) video_id c.id).isSome
        = true := by
    intro c hc
    cases hget : cacheGet (invalidateAll data video_id cands sig) video_id c.id with
    | none =>
      have := H c hc
      rw [hget] at this
      simp at this
    | some r => rfl
  have hcond : (cands.all (fun c =>
      cacheHas (invalidateAll data video_id cands sig) video_id c.id)) = true := by
    rw [List.all_eq_true]
    intro c hc
    unfold cacheHas
    exact hsome c hc
  obtain ⟨us, hus, hids, hshape⟩ := reconstructUnits_ok hsome
  have hrun : ∀ (b : Nat → Option Json), run data video_id cands b sig max_retries
      = .ok ⟨Json.obj [("video_id", .str video_id), ("units", .arr us)], 0,
             invalidateAll data video_id cands sig⟩ := by
    intro b
    unfold run
    rw [if_pos hcond]
    unfold reconstruct_from_cache
    rw [hus]
    rfl
  refine ⟨(hrun beh).trans (hrun beh2).symm, ?_, ?_, ?_⟩
  · rw [hrun beh]
    rfl
  · rw [hrun beh]
    unfold reconstruct_from_cache
    rw [hus]
    rfl
  · intro ro hro
    rw [hrun beh] at hro
    have hro' := hro.symm
    injection hro' with hro2
    subst hro2
    have hinv : invalidateAll (invalidateAll data video_id cands sig)
        video_id cands sig = invalidateAll data video_id cands sig :=
      invalidateAll_noop H
    show run (invalidateAll data video_id cands sig) video_id cands beh2 sig
        max_retries = _
    unfold run
    rw [hinv, if_pos hcond]
    unfold reconstruct_from_cache
    rw [hus]
    rfl

/-! ## Schema and invariant elimination lemmas (towards C1) -/

theorem schemaValidUnit_elim {u : Json} (h : schemaValidUnit u = true) :
    ∃ fs, u = Json.obj fs ∧
      (∃ i, jlookup fs "id" = some (.str i)) ∧
      (∃ t, jlookup fs "type" = some (.str t) ∧ t ∈ TYPE_ENUM) ∧
      (∃ n, jlookup fs "name" = some (.str n) ∧ 1 ≤ n.length ∧ n.length ≤ 80) ∧
      (∃ s, jlookup fs "summary" = some (.str s) ∧ 1 ≤ s.length ∧ s.length ≤ 300) ∧
      (∃ cf : ℚ, jlookup fs "confidence" = some (.num cf) ∧ 0 ≤ cf ∧ cf ≤ 1) := by
  cases u with
  | obj fs =>
    refine ⟨fs, rfl, ?_, ?_, ?_, ?_, ?_⟩ <;>
      simp only [schemaValidUnit, Bool.and_eq_true] at h
    · obtain ⟨⟨⟨⟨⟨_, hid⟩, _⟩, _⟩, _⟩, _⟩ := h
      cases hl : jlookup fs "id" with
      | none => rw [hl] at hid; simp at hid
      | some v =>
        cases v <;> rw [hl] at hid <;> simp at hid ⊢
    · obtain ⟨⟨⟨⟨_, hty⟩, _⟩, _⟩, _⟩ := h
      cases hl : jlookup fs "type" with
      | none => rw [hl] at hty; simp at hty
      | some v =>
        cases v <;> rw [hl] at hty <;> simp at hty ⊢
        rename_i t
        exact hty
    · obtain ⟨⟨⟨_, hna⟩, _⟩, _⟩ := h
      cases hl : jlookup fs "name" with
      | none => rw [hl] at hna; simp at hna
      | some v =>
        cases v <;> rw [hl] at hna <;> simp at hna ⊢
        exact hna
    · obtain ⟨⟨_, hsu⟩, _⟩ := h
      cases hl : jlookup fs "summary" with
      | none => rw [hl] at hsu; simp at hsu
      | some v =>
        cases v <;> rw [hl] at hsu <;> simp at hsu ⊢
        exact hsu
    · obtain ⟨_, hcf⟩ := h
      cases hl : jlookup fs "confidence" with
      | none => rw [hl] at hcf; simp at hcf
      | some v =>
        cases v <;> rw [hl] at hcf <;> simp at hcf ⊢
        exact hcf
  | null => simp [schemaValidUnit] at h
  | bool b => simp [schemaValidUnit] at h
  | num q => simp [schemaValidUnit] at h
  | str s => simp [schemaValidUnit] at h
  | arr l => simp [schemaValidUnit] at h

theorem validate_normalized_elim {result : Json} (h : validate_normalized result = true) :
    ∃ kvs us, result = Json.obj kvs ∧ jlookup kvs "units" = some (.arr us) ∧
      (∀ u ∈ us, schemaValidUnit u = true) := by
  cases result with
  | obj kvs =>
    simp only [validate_normalized, Bool.and_eq_true] at h
    obtain ⟨⟨_, _⟩, hu⟩ := h
    cases hl : jlookup kvs "units" with
    | none => rw [hl] at hu; simp at hu
    | some v =>
      cases v <;> rw [hl] at hu <;> simp at hu
      rename_i us
      exact ⟨kvs, us, rfl, hl, hu⟩
  | null => simp [validate_normalized] at h
  | bool b => simp [validate_normalized] at h
  | num q => simp [validate_normalized] at h
  | str s => simp [validate_normalized] at h
  | arr l => simp [validate_normalized] at h

theorem checkIdsZip_ids : ∀ (elems : List Json) (cands : List Candidate),
    checkIdsZip elems cands = .ok true → elems.length = cands.length →
    idsOfUnits elems = some (cands.map Candidate.id) := by
  intro elems
  induction elems with
  | nil =>
    intro cands _ hlen
    cases cands with
    | nil => rfl
    | cons c cs => simp at hlen
  | cons u us ih =>
    intro cands hchk hlen
    cases cands with
    | nil => simp at hlen
    | cons c cs =>
      cases u with
      | obj fs =>
        simp only [checkIdsZip] at hchk
        cases hl : jlookup fs "id" with
        | none => rw [hl] at hchk; simp at hchk
        | some v =>
          cases v <;> rw [hl] at hchk <;> try simp at hchk
          rename_i s
          by_cases hs : s = c.id
          · rw [if_pos hs] at hchk
            have htail := ih cs hchk (by simpa using hlen)
            simp only [idsOfUnits, unitIdOf, hl, htail, List.map_cons, hs]
          · rw [if_neg hs] at hchk
            simp at hchk
      | null => simp [checkIdsZip] at hchk
      | bool b => simp [checkIdsZip] at hchk
      | num q => simp [checkIdsZip] at hchk
      | str s => simp [checkIdsZip] at hchk
      | arr l => simp [checkIdsZip] at hchk

theorem ids_of_valid {result : Json} {cands : List Candidate}
    (hinv : validate_invariants result cands = .ok true)
    (hsch : validate_normalized result = true) :
    idsOf result = some (cands.map Candidate.id) := by
  obtain ⟨kvs, us, rfl, hunits, _⟩ := validate_normalized_elim hsch
  simp only [validate_invariants, pyGetDefault, hunits, Option.getD_some,
    pySubscript, pyLen, pyIter] at hinv
  split at hinv
  · exact absurd hinv (by simp)
  · rename_i hlen
    simp only [idsOf, hunits]
    exact checkIdsZip_ids us cands hinv (by omega)

/-! ## Fallback validity -/

theorem schemaValidUnit_fallback {c : Candidate} (h : c.text ≠ "") :
    schemaValidUnit (Json.obj [("id", .str c.id), ("type", .str "component"),
      ("name", .str "(unclear)"), ("summary", .str (pyTake c.text 280)),
      ("confidence", .num 0.3)]) = true := by
  have hdata : c.text.data ≠ [] := fun hd => h (String.ext hd)
  have hlen : 1 ≤ (pyTake c.text 280).length := by
    show 1 ≤ (c.text.data.take 280).length
    rw [List.length_take]
    have := List.length_pos.mpr hdata
    omega
  have hlen2 : (pyTake c.text 280).length ≤ 300 := by
    show (c.text.data.take 280).length ≤ 300
    rw [List.length_take]
    omega
  have h1 : jlookup [("id", Json.str c.id), ("type", .str "component"),
      ("name", .str "(unclear)"), ("summary", .str (pyTake c.text 280)),
      ("confidence", .num 0.3)] "id" = some (.str c.id) := rfl
  have h2 : jlookup [("id", Json.str c.id), ("type", .str "component"),
      ("name", .str "(unclear)"), ("summary", .str (pyTake c.text 280)),
      ("confidence", .num 0.3)] "type" = some (.str "component") := rfl
  have h3 : jlookup [("id", Json.str c.id), ("type", .str "component"),
      ("name", .str "(unclear)"), ("summary", .str (pyTake c.text 280)),
      ("confidence", .num 0.3)] "name" = some (.str "(unclear)") := rfl
  have h4 : jlookup [("id", Json.str c.id), ("type", .str "component"),
      ("name", .str "(unclear)"), ("summary", .str (pyTake c.text 280)),
      ("confidence", .num 0.3)] "summary" = some (.str (pyTake c.text 280)) := rfl
  have h5 : jlookup [("id", Json.str c.id), ("type", .str "component"),
      ("name", .str "(unclear)"), ("summary", .str (pyTake c.text 280)),
      ("confidence", .num 0.3)] "confidence" = some (.num 0.3) := rfl
  have hq1 : (0 : ℚ) ≤ 0.3 := by norm_num
  have hq2 : (0.3 : ℚ) ≤ 1 := by norm_num
  simp [schemaValidUnit, h1, h2, h3, h4, h5, hlen, hlen2, hq1, hq2, TYPE_ENUM]
  decide

theorem validate_fallback {video_id : String} {cands : List Candidate}
    (h : ∀ c ∈ cands, c.text ≠ "") :
    validate_normalized (create_fallback video_id cands) = true := by
  have hlk : jlookup [("video_id", Json.str video_id),
      ("units", Json.arr (cands.map (fun c =>
        Json.obj [("id", .str c.id), ("type", .str "component"),
                  ("name", .str "(unclear)"), ("summary", .str (pyTake c.text 280)),
                  ("confidence", .num 0.3)])))] "units"
      = some (Json.arr (cands.map (fun c =>
        Json.obj [("id", .str c.id), ("type", .str "component"),
                  ("name", .str "(unclear)"), ("summary", .str (pyTake c.text 280)),
                  ("confidence", .num 0.3)]))) := rfl
  have hall : (cands.map (fun c =>
      Json.obj [("id", .str c.id), ("type", .str "component"),
                ("name", .str "(unclear)"), ("summary", .str (pyTake c.text 280)),
                ("confidence", .num 0.3)])).all schemaValidUnit = true := by
    rw [List.all_eq_true]
    intro u hu
    obtain ⟨c, hc, rfl⟩ := List.mem_map.mp hu
    exact schemaValidUnit_fallback (h c hc)
  have h0 : jlookup [("video_id", Json.str video_id),
      ("units", Json.arr (cands.map (fun c =>
        Json.obj [("id", .str c.id), ("type", .str "component"),
                  ("name", .str "(unclear)"), ("summary", .str (pyTake c.text 280)),
                  ("confidence", .num 0.3)])))] "video_id"
      = some (Json.str video_id) := rfl
  simp [validate_normalized, create_fallback, h0, hlk, hall]

theorem idsOf_fallback (video_id : String) (cands : List Candidate) :
    idsOf (create_fallback video_id cands) = some (cands.map Candidate.id) := by
  simp only [idsOf, create_fallback]
  exact idsOfUnits_map Candidate.id _ cands (fun c _ => rfl)

/-! ## The retry loop always yields the fallback or a fully validated batch -/

theorem retryLoop_spec (beh : Nat → Option Json) (video_id : String)
    (cands : List Candidate) :
    ∀ (left attempt : Nat),
      (retryLoop beh video_id cands attempt left).1 = create_fallback video_id cands ∨
      (validate_invariants (retryLoop beh video_id cands attempt left).1 cands
          = .ok true ∧
        validate_normalized (retryLoop beh video_id cands attempt left).1 = true) := by
  intro left
  induction left with
  | zero =>
    intro attempt
    rw [retryLoop]
    cases hb : beh attempt with
    | none => left; rfl
    | some result =>
      dsimp only
      cases hv : validate_invariants result cands with
      | error e => left; rfl
      | ok b =>
        cases b with
        | false => left; rfl
        | true =>
          dsimp only
          by_cases hs : validate_normalized result = true
          · right
            rw [if_pos hs]
            exact ⟨hv, hs⟩
          · left
            rw [if_neg hs]
  | succ l ih =>
    intro attempt
    rw [retryLoop]
    cases hb : beh attempt with
    | none => exact ih (attempt + 1)
    | some result =>
      dsimp only
      cases hv : validate_invariants result cands with
      | error e => exact ih (attempt + 1)
      | ok b =>
        cases b with
        | false => exact ih (attempt + 1)
        | true =>
          dsimp only
          by_cases hs : validate_normalized result = true
          · right
            rw [if_pos hs]
            exact ⟨hv, hs⟩
          · rw [if_neg hs]
            exact ih (attempt + 1)

/-! ## Saving always succeeds on fallback or schema-valid batches -/

theorem saveUnits_ok {video_id sig : String} :
    ∀ (elems : List Json) (d : Cache),
      (∀ u ∈ elems, ∃ (i t n s : String) (cf : ℚ),
        pySubscript u "id" = .ok (.str i) ∧ pySubscript u "type" = .ok (.str t) ∧
        pySubscript u "name" = .ok (.str n) ∧
        pySubscript u "summary" = .ok (.str s) ∧
        pySubscript u "confidence" = .ok (.num cf)) →
      ∃ d2, saveUnits video_id sig d elems = .ok d2 := by
  intro elems
  induction elems with
  | nil => intro d _; exact ⟨d, rfl⟩
  | cons u us ih =>
    intro d h
    obtain ⟨i, t, n, s, cf, hi, ht, hn, hs, hcf⟩ := h u (List.mem_cons_self u us)
    have hrest := fun y hy => h y (List.mem_cons_of_mem u hy)
    obtain ⟨d2, hd2⟩ := ih (cacheSet d video_id i ⟨t, n, s, cf, sig⟩) hrest
    refine ⟨d2, ?_⟩
    show (match pySubscript u "type", pySubscript u "name", pySubscript u "summary",
        pySubscript u "confidence", pySubscript u "id" with
      | .ok (.str t), .ok (.str n), .ok (.str s), .ok (.num cf), .ok (.str i) =>
        saveUnits video_id sig (cacheSet d video_id i ⟨t, n, s, cf, sig⟩) us
      | _, _, _, _, _ => .error .typeError) = Except.ok d2
    rw [hi, ht, hn, hs, hcf]
    exact hd2

theorem saveable_fallback (cands : List Candidate) :
    ∀ u ∈ cands.map (fun c =>
      Json.obj [("id", Json.str c.id), ("type", .str "component"),
                ("name", .str "(unclear)"), ("summary", .str (pyTake c.text 280)),
                ("confidence", .num 0.3)]),
      ∃ (i t n s : String) (cf : ℚ),
        pySubscript u "id" = .ok (.str i) ∧ pySubscript u "type" = .ok (.str t) ∧
        pySubscript u "name" = .ok (.str n) ∧
        pySubscript u "summary" = .ok (.str s) ∧
        pySubscript u "confidence" = .ok (.num cf) := by
  intro u hu
  obtain ⟨c, _, rfl⟩ := List.mem_map.mp hu
  exact ⟨c.id, "component", "(unclear)", pyTake c.text 280, 0.3,
    rfl, rfl, rfl, rfl, rfl⟩

theorem saveable_of_schemaValid {u : Json} (h : schemaValidUnit u = true) :
    ∃ (i t n s : String) (cf : ℚ),
      pySubscript u "id" = .ok (.str i) ∧ pySubscript u "type" = .ok (.str t) ∧
      pySubscript u "name" = .ok (.str n) ∧
      pySubscript u "summary" = .ok (.str s) ∧
      pySubscript u "confidence" = .ok (.num cf) := by
  obtain ⟨fs, rfl, ⟨i, hid⟩, ⟨t, hty, _⟩, ⟨n, hn, _⟩, ⟨s, hsu, _⟩, ⟨cf, hcf, _⟩⟩ :=
    schemaValidUnit_elim h
  exact ⟨i, t, n, s, cf, by simp [pySubscript, hid], by simp [pySubscript, hty],
    by simp [pySubscript, hn], by simp [pySubscript, hsu], by simp [pySubscript, hcf]⟩

theorem cacheGet_mem {data : Cache} {vid uid : String} {r : CacheRecord}
    (h : cacheGet data vid uid = some r) : ∃ k, (k, r) ∈ data := by
  unfold cacheGet at h
  cases hf : data.find? (fun p => decide (p.1 = cacheKey vid uid)) with
  | none => rw [hf] at h; simp at h
  | some p =>
    rw [hf] at h
    simp only [Option.map_some', Option.some.injEq] at h
    subst h
    exact ⟨p.1, List.mem_of_find?_eq_some hf⟩

theorem invalidate_sub {data : Cache} {vid uid sig : String} :
    ∀ e ∈ invalidate_if_sig_mismatch data vid uid sig, e ∈ data := by
  intro e he
  unfold invalidate_if_sig_mismatch at he
  cases hg : cacheGet data vid uid with
  | none => rw [hg] at he; exact he
  | some r =>
    rw [hg] at he
    dsimp only at he
    by_cases hne : r.normalizer_sig ≠ sig
    · rw [if_pos hne] at he
      unfold cacheDel at he
      exact List.mem_of_mem_filter he
    · rw [if_neg hne] at he
      exact he

theorem invalidateAll_sub {vid sig : String} :
    ∀ (cands : List Candidate) (data : Cache),
      ∀ e ∈ invalidateAll data vid cands sig, e ∈ data := by
  intro cands
  induction cands with
  | nil => intro data e he; exact he
  | cons c cs ih =>
    intro data e he
    have h1 : invalidateAll data vid (c :: cs) sig
        = invalidateAll (invalidate_if_sig_mismatch data vid c.id sig) vid cs sig := rfl
    rw [h1] at he
    exact invalidate_sub e (ih _ e he)

theorem schemaValidUnit_record {c : Candidate} {r : CacheRecord} (h : recordOK r) :
    schemaValidUnit (Json.obj [("id", .str c.id), ("type", .str r.type),
      ("name", .str r.name), ("summary", .str r.summary),
      ("confidence", .num r.confidence)]) = true := by
  obtain ⟨hty, hn1, hn2, hs1, hs2, hc1, hc2⟩ := h
  have h1 : jlookup [("id", Json.str c.id), ("type", .str r.type),
      ("name", .str r.name), ("summary", .str r.summary),
      ("confidence", .num r.confidence)] "id" = some (.str c.id) := rfl
  have h2 : jlookup [("id", Json.str c.id), ("type", .str r.type),
      ("name", .str r.name), ("summary", .str r.summary),
      ("confidence", .num r.confidence)] "type" = some (.str r.type) := rfl
  have h3 : jlookup [("id", Json.str c.id), ("type", .str r.type),
      ("name", .str r.name), ("summary", .str r.summary),
      ("confidence", .num r.confidence)] "name" = some (.str r.name) := rfl
  have h4 : jlookup [("id", Json.str c.id), ("type", .str r.type),
      ("name", .str r.name), ("summary", .str r.summary),
      ("confidence", .num r.confidence)] "summary" = some (.str r.summary) := rfl
  have h5 : jlookup [("id", Json.str c.id), ("type", .str r.type),
      ("name", .str r.name), ("summary", .str r.summary),
      ("confidence", .num r.confidence)] "confidence" = some (.num r.confidence) := rfl
  simp [schemaValidUnit, h1, h2, h3, h4, h5, hty, hn1, hn2, hs1, hs2, hc1, hc2]

theorem validate_normalized_build {video_id : String} {us : List Json}
    (h : ∀ u ∈ us, schemaValidUnit u = true) :
    validate_normalized (Json.obj [("video_id", .str video_id),
      ("units", .arr us)]) = true := by
  have h0 : jlookup [("video_id", Json.str video_id), ("units", Json.arr us)]
      "video_id" = some (.str video_id) := rfl
  have hlk : jlookup [("video_id", Json.str video_id), ("units", Json.arr us)]
      "units" = some (.arr us) := rfl
  have hall : us.all schemaValidUnit = true := List.all_eq_true.mpr h
  simp [validate_normalized, h0, hlk, hall]

/-- C1 (amended): for candidates with nonempty text and a cache whose records
satisfy the per-record schema bounds, `run` returns without raising — for
every categorizer behaviour, including raising or returning arbitrary data on
every attempt — a batch that is schema-valid and whose unit id sequence
equals the input candidate id sequence, in order, whether the result comes
from the cache, from an accepted categorizer call, or from the fallback. -/
theorem c1_run_contract (data : Cache) (video_id : String) (cands : List Candidate)
    (beh : Nat → Option Json) (sig : String) (max_retries : Nat)
    (htext : ∀ c ∈ cands, c.text ≠ "")
    (hrec : ∀ e ∈ data, recordOK e.2) :
    (run data video_id cands beh sig max_retries).toOption.map
      (fun ro => validate_normalized ro.out) = some true ∧
    (run data video_id cands beh sig max_retries).toOption.map
      (fun ro => idsOf ro.out) = some (some (cands.map Candidate.id)) := by
  have hmain : ∃ ro, run data video_id cands beh sig max_retries = .ok ro ∧
      validate_normalized ro.out = true ∧
      idsOf ro.out = some (cands.map Candidate.id) := by
    unfold run
    by_cases hcond : (cands.all (fun c =>
        cacheHas (invalidateAll data video_id cands sig) video_id c.id)) = true
    · rw [if_pos hcond]
      have hsome : ∀ c ∈ cands,
          (cacheGet (invalidateAll data video_id cands sig) video_id c.id).isSome
            = true := by
        intro c hc
        exact List.all_eq_true.mp hcond c hc
      obtain ⟨us, hus, hids, hshape⟩ := reconstructUnits_ok hsome
      have hvalid : ∀ u ∈ us, schemaValidUnit u = true := by
        intro u hu
        obtain ⟨c, r, hget, rfl⟩ := hshape u hu
        apply schemaValidUnit_record
        obtain ⟨k, hk⟩ := cacheGet_mem hget
        exact hrec (k, r) (invalidateAll_sub cands data (k, r) hk)
      unfold reconstruct_from_cache
      rw [hus]
      refine ⟨⟨Json.obj [("video_id", .str video_id), ("units", .arr us)], 0,
        invalidateAll data video_id cands sig⟩, rfl, ?_, ?_⟩
      · exact validate_normalized_build hvalid
      · simp only [idsOf]
        have hlk : jlookup [("video_id", Json.str video_id), ("units", Json.arr us)]
            "units" = some (.arr us) := rfl
        rw [hlk]
        exact hids
    · rw [if_neg hcond]
      rcases retryLoop_spec beh video_id cands max_retries 0 with hfb | ⟨hinv, hsch⟩
      · rw [hfb]
        have hsave : ∃ d2, save_to_cache (invalidateAll data video_id cands sig)
            video_id (create_fallback video_id cands) sig = .ok d2 := by
          unfold save_to_cache
          have h1 : pySubscript (create_fallback video_id cands) "units"
              = .ok (.arr (cands.map (fun c =>
                Json.obj [("id", Json.str c.id), ("type", .str "component"),
                          ("name", .str "(unclear)"),
                          ("summary", .str (pyTake c.text 280)),
                          ("confidence", .num 0.3)]))) := rfl
          rw [h1]
          exact saveUnits_ok _ _ (saveable_fallback cands)
        obtain ⟨d2, hd2⟩ := hsave
        rw [hd2]
        refine ⟨⟨create_fallback video_id cands,
          (retryLoop beh video_id cands 0 max_retries).2, d2⟩, rfl, ?_, ?_⟩
        · exact validate_fallback htext
        · exact idsOf_fallback video_id cands
      · obtain ⟨kvs, us, heq, hunits, hvalid⟩ := validate_normalized_elim hsch
        have hsave : ∃ d2, save_to_cache (invalidateAll data video_id cands sig)
            video_id (retryLoop beh video_id cands 0 max_retries).1 sig
              = .ok d2 := by
          unfold save_to_cache
          rw [heq]
          have h1 : pySubscript (Json.obj kvs) "units" = .ok (.arr us) := by
            simp [pySubscript, hunits]
          rw [h1]
          apply saveUnits_ok
          intro u hu
          exact saveable_of_schemaValid (hvalid u hu)
        obtain ⟨d2, hd2⟩ := hsave
        rw [hd2]
        refine ⟨⟨(retryLoop beh video_id cands 0 max_retries).1,
          (retryLoop beh video_id cands 0 max_retries).2, d2⟩, rfl, ?_, ?_⟩
        · exact hsch
        · exact ids_of_valid hinv hsch
  obtain ⟨ro, hro, hv, hi⟩ := hmain
  rw [hro]
  exact ⟨by simp [Except.toOption, hv], by simp [Except.toOption, hi]⟩

/-! ## Concrete witnesses and the C1 counterexample

A small transcript and option set exercise the extractor end to end; a
one-candidate batch with and without cache entries exercises the runner. -/

section

attribute [local semireducible] Rat.add Rat.sub Rat.mul Rat.inv Rat.ofScientific

/-- A concrete 42-character transcript with a repeated sentence. -/
def wtr : List Char := "Use this one. Go now fast. Use this one. x".data

/-- Concrete extraction options: small windows, word band `[2, 6]`. -/
def wopts : ExtractOptions :=
  { window_chars := 20, min_words := 2, max_words := 6 }

theorem wlen_pos : 0 < (candidatesList wtr wopts).length := by decide

/-- The first sentence candidate of the concrete transcript. -/
def wu : Unit := (candidatesList wtr wopts).get ⟨0, wlen_pos⟩

theorem wu_mem : wu ∈ candidatesList wtr wopts := List.get_mem _ _ _

/-- Witness for C5: the first candidate of the concrete transcript is scored
by the documented formula. -/
theorem c5_score_formula_witness :
    wu ∈ candidatesList wtr wopts ∧
    wu.score = 0.4 * (occurrences (canon_text wtr) (canon_text wu.text) : ℚ)
      + 0.2 * (1 - (wu.start : ℚ) / (wtr.length : ℚ))
      + 0.2 * (((min (words wu.text) wopts.max_words : Nat) : ℚ) / (wopts.max_words : ℚ))
      + 0.2 * (imperative_boost wu.text : ℚ) :=
  ⟨wu_mem, (c5_score_formula wtr wopts wu wu_mem).1⟩

/-- Witness for C4 at a concrete string and window size: the last window ends
at the length of the string. -/
theorem c4_windows_partition_witness :
    (1 : Nat) ≤ 4 ∧
    ((split_into_windows_by_chars "ab. cd".data 4).getLastD wdflt).stop
      = "ab. cd".data.length := by
  have h := c4_windows_partition "ab. cd".data 4 (by decide)
  exact ⟨by decide, h.2.2.2.2.1 (h.2.2.2.2.2 (by decide))⟩

/-- Witness for C7: on the concrete transcript fewer candidates survive than
the default target, and the unit count equals the survivor count. -/
theorem c7_target_count_witness :
    (survivors wtr wopts).length < defaultTarget wtr.length ∧
    (extract_deterministic_units wtr wopts).units.length
      = (survivors wtr wopts).length := by
  have hlt : (survivors wtr wopts).length < defaultTarget wtr.length := by decide
  exact ⟨hlt, ((c7_target_count wtr wopts).2 rfl).2 hlt⟩

theorem wulen_pos : 0 < (extract_deterministic_units wtr wopts).units.length := by decide

/-- The first emitted unit of the concrete extraction. -/
def wu8 : Unit := (extract_deterministic_units wtr wopts).units.get ⟨0, wulen_pos⟩

theorem wc8len : 2 < (candidatesList wtr wopts).length := by decide

/-- The third scored candidate: an exact duplicate of the first. -/
def wc8 : Unit := (candidatesList wtr wopts).get ⟨2, wc8len⟩

/-- Witness for C8: a concrete emitted unit and a later exact-duplicate
candidate share their canonical text, and the emitted unit starts earlier. -/
theorem c8_exact_dedup_witness :
    wu8 ∈ (extract_deterministic_units wtr wopts).units ∧
    wc8 ∈ candidatesList wtr wopts ∧
    canon_text wc8.text = canon_text wu8.text ∧
    wu8.start ≤ wc8.start := by
  have h1 : wu8 ∈ (extract_deterministic_units wtr wopts).units := List.get_mem _ _ _
  have h2 : wc8 ∈ candidatesList wtr wopts := List.get_mem _ _ _
  have h3 : canon_text wc8.text = canon_text wu8.text := by decide
  exact ⟨h1, h2, h3, (c8_exact_dedup wtr wopts).2 wu8 h1 wc8 h2 h3⟩

/-- Witness for C10: the concrete options satisfy the hypothesis, and a
window text the sentence regex cannot match splits to itself whole. -/
theorem c10_word_band_witness :
    1 ≤ wopts.min_words ∧
    sentence_split "no terminator here".data
      = [⟨"no terminator here".data, 0, "no terminator here".data.length⟩] := by
  refine ⟨by decide, ?_⟩
  exact (c10_word_band wtr wopts (by decide)).2 "no terminator here".data (by rfl) (by decide)

/-- A categorizer behaviour that raises on every attempt. -/
def wbeh : Nat → Option Json := fun _ => none

/-- A one-entry cache keyed `"v:u1"` carrying the current signature. -/
def wcache : Cache := [("v:u1", ⟨"technique", "name", "summary", 1/2, "sig"⟩)]

/-- A single candidate with nonempty text. -/
def wcands2 : List Candidate := [⟨"u1", "hello"⟩]

theorem wH : ∀ c ∈ wcands2,
    (cacheGet (invalidateAll wcache "v" wcands2 "sig") "v" c.id).map
      CacheRecord.normalizer_sig = some "sig" := by decide

/-- Witness for C2: with the single candidate fully cached under the current
signature, the run makes zero categorizer calls. -/
theorem c2_cached_run_witness :
    (cacheGet (invalidateAll wcache "v" wcands2 "sig") "v" "u1").map
      CacheRecord.normalizer_sig = some "sig" ∧
    (run wcache "v" wcands2 wbeh "sig" 1).toOption.map RunOut.calls = some 0 :=
  ⟨by decide, (c2_cached_run wcache "v" wcands2 wbeh wbeh "sig" 1 wH).2.1⟩

/-- Witness for C1 (amended): one nonempty-text candidate, an empty cache and
an always-raising categorizer yield a schema-valid batch with matching ids. -/
theorem c1_run_contract_witness :
    ("hello" : String) ≠ "" ∧
    (run [] "v" wcands2 wbeh "sig" 1).toOption.map
      (fun ro => validate_normalized ro.out) = some true ∧
    (run [] "v" wcands2 wbeh "sig" 1).toOption.map
      (fun ro => idsOf ro.out) = some (some (wcands2.map Candidate.id)) := by
  have htext : ∀ c ∈ wcands2, c.text ≠ "" := by decide
  have hrec : ∀ e ∈ ([] : Cache), recordOK e.2 := by
    intro e he
    cases he
  have h := c1_run_contract [] "v" wcands2 wbeh "sig" 1 htext hrec
  exact ⟨by decide, h.1, h.2⟩

/-- Counterexample to C1 as stated, in two parts.  First, a candidate with
empty text makes the fallback summary the empty string, so after the
categorizer fails every attempt the returned batch fails schema validation
(`summary` has `minLength` 1).  Second, a cached record violating a
per-record schema bound (here a 100-character `name`, over the schema's
`maxLength` 80) under the current signature is reconstructed into the output
without validation, so even with nonempty candidate text the returned batch
fails schema validation.  Both contradict the claim that the returned batch
is always schema-valid. -/
theorem c1_counterexample :
    (run [] "v" [⟨"u1", ""⟩] wbeh "sig" 1).toOption.map
      (fun ro => validate_normalized ro.out) = some false ∧
    (run [("v:u1", ⟨"technique", String.mk (List.replicate 100 'a'), "summary",
        1/2, "sig"⟩)] "v" wcands2 wbeh "sig" 1).toOption.map
      (fun ro => validate_normalized ro.out) = some false := by
  constructor
  · decide
  · decide

end

end YKB
